import Mathlib

set_option maxRecDepth 4000

/-!
Shallow embedding of the `bigint` arbitrary-precision integer library
(`src/bigint.c`, `src/bigint.h`) with the default compile-time configuration
`DIGIT_WIDTH = 8`: a digit is a `uint8_t`, `DIGIT_BITS = 8`,
`DIGIT_MAX = 255`, and the digit base is `256`.

A `bigint_st` is modelled by its observable state: the list of live digits
(least-significant first, exactly the digits at indices `0 .. length-1` of
the C digit array) together with the `negative` flag.  The `allocated`
capacity field only governs memory management and is not part of the value.
Machine arithmetic on digits is modelled on `Nat` with explicit `% 256` and
`/ 256` where the C code relies on `uint8_t` wraparound.
-/

/-- Observable state of a `bigint_st`: live digits (LSB first) and sign flag. -/
structure Bigint where
  digits : List Nat
  negative : Bool
deriving DecidableEq

/-- Value of a digit list, least-significant digit first, in base 256. -/
def natVal : List Nat → Nat
  | [] => 0
  | d :: ds => d + 256 * natVal ds

/-- Value of a digit list given most-significant digit first. -/
def msbVal (ds : List Nat) : Nat := ds.foldl (fun acc d => acc * 256 + d) 0

/-- Every entry is a legal `uint8_t` value. -/
def digitsOk (ds : List Nat) : Prop := ∀ d ∈ ds, d < 256

instance (ds : List Nat) : Decidable (digitsOk ds) := by
  unfold digitsOk; infer_instance

/-- Invariant N1 of the C struct: the most significant stored digit is
non-zero (vacuous for the empty list). -/
def normalizedDigits (ds : List Nat) : Prop := ds.getLast? ≠ some 0

instance (ds : List Nat) : Decidable (normalizedDigits ds) := by
  unfold normalizedDigits; infer_instance

/-- Representation invariants of a `bigint_st`: digit bounds, N1 (no leading
zero digit) and N2 (zero is never negative). -/
def Bigint.Valid (x : Bigint) : Prop :=
  digitsOk x.digits ∧ normalizedDigits x.digits ∧ (x.negative = true → x.digits ≠ [])

instance (x : Bigint) : Decidable x.Valid := by
  unfold Bigint.Valid; infer_instance

/-- Signed value represented by a `bigint_st`. -/
def Bigint.toInt (x : Bigint) : Int :=
  if x.negative then -(natVal x.digits : Int) else (natVal x.digits : Int)

/-- Strip leading zeros of a most-significant-first digit list (helper for
`normalize`). -/
def stripZeros : List Nat → List Nat
  | [] => []
  | 0 :: ds => stripZeros ds
  | d :: ds => d :: ds

/-- `normalize` (bigint.c:716): drop the most significant zero digits by
shrinking `length`. -/
def normalizeDigits (ds : List Nat) : List Nat := (stripZeros ds.reverse).reverse

/-- `normalize` (bigint.c:716) on the whole struct: shrink the length past
leading zeros and clear the `negative` flag when the value becomes 0. -/
def normalizeBig (x : Bigint) : Bigint :=
  let ds := normalizeDigits x.digits
  ⟨ds, if ds.isEmpty then false else x.negative⟩

/-- Digit-by-digit comparison scan of `magnitude_cmp` (bigint.c:812-820),
on most-significant-first lists of equal length. -/
def cmpRev : List Nat → List Nat → Int
  | a :: as, b :: bs => if a > b then 1 else if a < b then -1 else cmpRev as bs
  | _, _ => 0

/-- `magnitude_cmp` (bigint.c:798): compare magnitudes; unequal (or zero)
lengths are decided by the lengths, equal non-zero lengths by scanning from
the most significant digit. -/
def cmpList (a b : List Nat) : Int :=
  if a.length ≠ 0 ∧ a.length = b.length then cmpRev a.reverse b.reverse
  else if a.length > b.length then 1
  else if a.length < b.length then -1
  else 0

/-- One-operand tail of the `magnitude_sum` digit loop (bigint.c:930-935):
once the shorter operand is exhausted, each column adds only the carry.
`sum` is a `uint8_t`, hence the `% 256`; the carry test `sum < augend` is
the `/ 256` bit.  The trailing `[c]` models the carry escaping the most
significant column (bigint.c:944-950). -/
def sumCarry : List Nat → Nat → List Nat
  | [], c => if c ≠ 0 then [c] else []
  | b :: bs, c => ((b + c) % 256) :: sumCarry bs ((b + c) / 256)

/-- Digit loop of `magnitude_sum` (bigint.c:929-942): the three branches are
`offset >= a_length` (first list exhausted), `offset >= b_length` (second
list exhausted) and the general column add. -/
def sumGo : List Nat → List Nat → Nat → List Nat
  | [], bs, c => sumCarry bs c
  | as, [], c => sumCarry as c
  | a :: as, b :: bs, c => ((a + b + c) % 256) :: sumGo as bs ((a + b + c) / 256)

/-- `magnitude_sum` (bigint.c:909) at the digit-list level (the
both-operands-zero early exit produces the same empty list). -/
def sumList (a b : List Nat) : List Nat := normalizeDigits (sumGo a b 0)

/-- `magnitude_sum` (bigint.c:909).  The C function never touches the
destination's `negative` flag (normalize may clear it), so the flag the
destination held on entry is a parameter. -/
def magnitude_sum (destNeg : Bool) (a b : Bigint) : Bigint :=
  if a.digits = [] ∧ b.digits = [] then ⟨[], false⟩
  else normalizeBig ⟨sumGo a.digits b.digits 0, destNeg⟩

/-- Borrow propagation of `magnitude_delta` (bigint.c:875-882) and
`magnitude_dec` (bigint.c:740-747): decrement the first non-zero digit,
turning the zero digits below it into `DIGIT_MAX`. -/
def borrowFrom : List Nat → List Nat
  | [] => []
  | 0 :: ds => 255 :: borrowFrom ds
  | (d + 1) :: ds => d :: ds

/-- Digit loop of `magnitude_delta` (bigint.c:854-889).  When the minuend's
digit is smaller, borrow from the digits above and rely on `uint8_t`
wraparound for the column difference (`m - s` computed mod 256). -/
def deltaGo : List Nat → List Nat → List Nat
  | [], _ => []
  | ms, [] => ms
  | m :: ms, s :: ss =>
      if m < s then ((m + 256 - s) % 256) :: deltaGo (borrowFrom ms) ss
      else (m - s) :: deltaGo ms ss

/-- `magnitude_delta` (bigint.c:841) at the digit-list level (requires
`|m| ≥ |s|`, like the C function). -/
def deltaList (m s : List Nat) : List Nat := normalizeDigits (deltaGo m s)

/-- Carry loop of `magnitude_inc` (bigint.c:768-772) plus the growth step
(bigint.c:774-780): once the carry dies the remaining digits are unchanged;
a surviving carry appends a new most significant digit. -/
def incGo : List Nat → List Nat
  | [] => [1]
  | d :: ds => if d + 1 ≥ 256 then 0 :: incGo ds else (d + 1) :: ds

/-- `magnitude_inc` (bigint.c:762). -/
def magnitude_inc (x : Bigint) : Bigint := normalizeBig ⟨incGo x.digits, x.negative⟩

/-- `magnitude_dec` (bigint.c:735): `digits[0]--` with `uint8_t` wraparound;
a wrap to `DIGIT_MAX` triggers the borrow loop.  With length 0 the C code
decrements a slot beyond the live digits, leaving the value unchanged. -/
def magnitude_dec (x : Bigint) : Bigint :=
  match x.digits with
  | [] => normalizeBig ⟨[], x.negative⟩
  | 0 :: ds => normalizeBig ⟨255 :: borrowFrom ds, x.negative⟩
  | (d + 1) :: ds => normalizeBig ⟨d :: ds, x.negative⟩

/-- `bigint_inc` (bigint.c:1450): negative values delegate to a magnitude
decrement, others to a magnitude increment. -/
def bigint_inc (x : Bigint) : Bigint :=
  if x.negative then magnitude_dec x else magnitude_inc x

/-- `bigint_dec` (bigint.c:1463): zero is set to -1 directly; negative
values delegate to a magnitude increment, positive to a decrement. -/
def bigint_dec (x : Bigint) : Bigint :=
  if x.digits.isEmpty then ⟨[1], true⟩
  else if x.negative then magnitude_inc x else magnitude_dec x

/-- `bigint_mov` (bigint.c:494): copies the source's live digits and the
length.  The `negative` flag of the destination is not written. -/
def bigint_mov (dest src : Bigint) : Bigint := ⟨src.digits, dest.negative⟩

/-- Bitwise AND computed on the low `fuel` bits (digits are below 2^8, so
`fuel = 8` captures the C computation exactly). -/
def landBits : Nat → Nat → Nat → Nat
  | 0, _, _ => 0
  | fuel + 1, a, b =>
      (if a % 2 = 1 ∧ b % 2 = 1 then 1 else 0) + 2 * landBits fuel (a / 2) (b / 2)

/-- Bitwise OR computed on the low `fuel` bits. -/
def lorBits : Nat → Nat → Nat → Nat
  | 0, _, _ => 0
  | fuel + 1, a, b =>
      (if a % 2 = 1 ∨ b % 2 = 1 then 1 else 0) + 2 * lorBits fuel (a / 2) (b / 2)

/-- `POWER_OF_2` macro (bigint.c:79): `((x - 1) & x) == 0` on a digit
value.  For `x = 0` the C expression (computed in `int`) is `-1 & 0 = 0`,
which matches `0 - 1 = 0` in `Nat`: both report `true`. -/
def POWER_OF_2 (x : Nat) : Bool := landBits 8 (x - 1) x == 0

/-- `bigint_is_power_of_2` (bigint.c:315): non-zero, all digits below the
top are zero, and the top digit passes `POWER_OF_2`. -/
def isPow2List (ds : List Nat) : Bool :=
  if ds.isEmpty then false
  else ds.dropLast.all (· == 0) && POWER_OF_2 (ds.getLastD 0)

/-- Trailing-zero bit count of one digit (inner loop of `ctz`,
bigint.c:696-699); the fuel of 8 covers every non-zero `uint8_t`. -/
def ctzDigit : Nat → Nat → Nat
  | 0, _ => 0
  | fuel + 1, d => if d % 2 = 0 then 1 + ctzDigit fuel (d / 2) else 0

/-- `ctz` (bigint.c:684): 8 bits per all-zero digit, plus the trailing-zero
bits of the first non-zero digit. -/
def ctzList : List Nat → Nat
  | [] => 0
  | d :: ds => if d = 0 then 8 + ctzList ds else ctzDigit 8 d

/-- Intra-digit left-shift scan of `bigint_shli` (bigint.c:1283-1290):
output digit `from + new_digits - 1` is
`(lsb << offset | msb >> (8 - offset)) & DIGIT_MAX` of the two straddled
input digits, walking `from` = 0 .. original_length (the final recursion
step emits the top partial digit where `lsb` is out of range). -/
def shlOffGo (off : Nat) (prev : Nat) : List Nat → List Nat
  | [] => [prev / 2 ^ (8 - off)]
  | d :: ds => ((d * 2 ^ off) % 256 + prev / 2 ^ (8 - off)) :: shlOffGo off d ds

/-- `bigint_shli` (bigint.c:1226): left shift by `n` bits.  The whole-digit
displacement becomes zero digits below the value (`memset`,
bigint.c:1294); a digit-aligned shift just relocates the digits
(bigint.c:1271-1276). -/
def bigint_shli (x : Bigint) (n : Nat) : Bigint :=
  if n = 0 ∨ x.digits.isEmpty then normalizeBig x
  else if n % 8 = 0 then
    normalizeBig ⟨List.replicate (n / 8) 0 ++ x.digits, x.negative⟩
  else
    normalizeBig ⟨List.replicate (n / 8) 0 ++ shlOffGo (n % 8) 0 x.digits, x.negative⟩

/-- Intra-digit right-shift scan of `bigint_shri` (bigint.c:1373-1380):
output digit `i` is `(msb << (8 - offset) | lsb >> offset) & DIGIT_MAX`
where `lsb = x[from-1]`, `msb = x[from]` (0 out of range),
`from = shifted_digits + i`.  Applied to the digit list with the
whole-digit displacement already dropped. -/
def shrOffGo (off : Nat) : List Nat → List Nat
  | [] => []
  | [d] => [d / 2 ^ off]
  | d :: e :: ds => (d / 2 ^ off + (e % 2 ^ off) * 2 ^ (8 - off)) :: shrOffGo off (e :: ds)

/-- `bigint_shri` (bigint.c:1339): right shift by `n` bits.  A count of at
least `DIGIT_BITS * length` yields zero (bigint.c:1357-1360); the final
`resize` keeps `length - n/8` digits (aligned: `length - shifted_digits`),
and `done:` re-applies the operand's sign and normalizes. -/
def bigint_shri (x : Bigint) (n : Nat) : Bigint :=
  if n = 0 ∨ x.digits.isEmpty then normalizeBig x
  else if 8 * x.digits.length ≤ n then ⟨[], false⟩
  else if n % 8 = 0 then
    normalizeBig ⟨x.digits.drop (n / 8), x.negative⟩
  else
    normalizeBig ⟨shrOffGo (n % 8) (x.digits.drop (n / 8)), x.negative⟩

/-- Inner loop of `bigint_mul` (bigint.c:1676-1701) for one value of `i`:
`steps` columns of `product = dest[i+j] + carry + a_i*b_j` (computed in the
16-bit super-digit; low byte stored, high byte carried), then the residual
carry is written into the next accumulator slot, which the `memset` and the
write pattern of previous rows guarantee to be 0 (the write is skipped when
the carry is 0, bigint.c:1695-1701). -/
def fmaRowGo (ai : Nat) : Nat → Nat → List Nat → List Nat → List Nat
  | 0, c, buf, _ =>
      if c = 0 then buf
      else match buf with
        | [] => [c]
        | _ :: rest => c :: rest
  | steps + 1, c, buf, bs =>
      let t := buf.headD 0 + c + ai * bs.headD 0
      (t % 256) :: fmaRowGo ai steps (t / 256) buf.tail bs.tail

/-- Outer loop of `bigint_mul` (bigint.c:1673-1702): row `i` multiplies
`a_i` (0 beyond `a`'s length) into the accumulator starting at offset `i`.
Once a row is done its lowest column is final, so the recursion keeps the
head and descends into the tail. -/
def mulRowsGo (steps : Nat) (bs : List Nat) : Nat → List Nat → List Nat → List Nat
  | 0, buf, _ => buf
  | rows + 1, buf, as =>
      match fmaRowGo (as.headD 0) steps 0 buf bs with
      | [] => []
      | u :: rest => u :: mulRowsGo steps bs rows rest as.tail

/-- Schoolbook core of `bigint_mul`: the accumulator buffer is zeroed
(`memset`, bigint.c:1668) and sized by `resize_sum(dest, a->length,
b->length)` plus allocation slack; the extra `maxL` zeros stand for the
allocated-but-beyond-length slots the loop may touch, which normalization
discards again. -/
def schoolbook (as bs : List Nat) : List Nat :=
  mulRowsGo (max as.length bs.length) bs (max as.length bs.length)
    (List.replicate (as.length + bs.length + max as.length bs.length) 0) as

/-- `bigint_mul` (bigint.c:1600): zero operands short-circuit
(bigint.c:1633-1637); a multi-digit power-of-two operand turns into a left
shift of the other operand by its trailing-zero count (bigint.c:1639-1655);
otherwise schoolbook long multiplication.  The sign is the XOR of the
operand signs, applied at `done:` before the final `normalize`
(bigint.c:1712-1713). -/
def bigint_mul (a b : Bigint) : Bigint :=
  if a.digits.isEmpty ∨ b.digits.isEmpty then ⟨[], false⟩
  else if 1 < a.digits.length ∧ isPow2List a.digits then
    normalizeBig ⟨(bigint_shli b (ctzList a.digits)).digits, a.negative != b.negative⟩
  else if 1 < b.digits.length ∧ isPow2List b.digits then
    normalizeBig ⟨(bigint_shli a (ctzList b.digits)).digits, a.negative != b.negative⟩
  else
    normalizeBig ⟨schoolbook a.digits b.digits, a.negative != b.negative⟩

/-- The constant 1 (`bigint_movui(dest, 1)` / `bigint_from_int(1)`). -/
def oneBig : Bigint := ⟨[1], false⟩

/-- The constant 0 (`bigint_movui(dest, 0)` / `bigint_from_int(0)`). -/
def zeroBig : Bigint := ⟨[], false⟩

/-- `TEN` = `small_number_cache[10]` (bigint.c:84). -/
def TEN : Bigint := ⟨[10], false⟩

/-- Small-number-cache entry (`small_number_cache[n]`, values 0..16 produced
by `bigint_from_uint`). -/
def cacheBig (n : Nat) : Bigint := ⟨if n = 0 then [] else [n], false⟩

/-- Square-and-multiply loop of `bigint_pow` (bigint.c:2053-2067): multiply
the result in when the exponent's low bit is set, halve the exponent, stop
when it is zero, otherwise square the base.  The fuel is spent once per
loop iteration; `8 * |E| + 1` iterations always suffice because each one
halves the exponent. -/
def powLoopF : Nat → Bigint → Bigint → Bigint → Bigint
  | 0, dest, _, _ => dest
  | fuel + 1, dest, base, e =>
      let dest1 := if e.digits.headD 0 % 2 = 1 then bigint_mul dest base else dest
      let e1 := bigint_shri e 1
      if e1.digits.isEmpty then dest1
      else powLoopF fuel dest1 (bigint_mul base base) e1

/-- `bigint_pow` (bigint.c:2012): `none` models the `NULL`/`EDOM` return
for a negative exponent.  The result sign is precomputed from the original
operands (bigint.c:2015) and applied at `done:` (bigint.c:2070). -/
def bigint_pow (base e : Bigint) : Option Bigint :=
  let negative := ¬e.digits.isEmpty ∧ base.negative ∧ e.digits.headD 0 % 2 = 1
  if e.negative then none
  else if e.digits.isEmpty then some ⟨oneBig.digits, decide negative⟩
  else if base.digits.isEmpty then some ⟨zeroBig.digits, decide negative⟩
  else
    let r := powLoopF (8 * e.digits.length + 1) oneBig base e
    some ⟨r.digits, decide negative⟩

/-- Factor search of the division general case (bigint.c:1876-1895):
repeatedly add `d` into the accumulator; on reaching the intermediate (or
the factor cap `DIGIT_MAX`) undo a possible overshoot and subtract the
accumulator from the intermediate (`MAGNITUDE_RDELTA`).  Returns the factor
(the next quotient digit) and the reduced intermediate. -/
def factorGo (dds : List Nat) : Nat → List Nat → List Nat → Nat → Nat × List Nat
  | 0, inter, acc, factor => (factor, deltaList inter acc)
  | fuel + 1, inter, acc, factor =>
      let acc1 := sumList acc dds
      let cmp := cmpList acc1 inter
      if 0 ≤ cmp ∨ factor = 255 then
        if 0 < cmp then (factor - 1, deltaList inter (deltaList acc1 dds))
        else (factor, deltaList inter acc1)
      else factorGo dds fuel inter acc1 (factor + 1)

/-- Digit-exposure loop of the division general case (bigint.c:1852-1868):
while the intermediate is smaller than the divisor, unhide the next
numerator digit (prepending it below the intermediate's digits); every
exposure that still leaves the intermediate smaller emits a quotient digit
0.  Returns `(done, hidden, intermediate, emitted)` where `done` signals
the `goto quotient_complete` taken when no hidden digits remain. -/
def exposeGo (nds dds : List Nat) :
    Nat → List Nat → List Nat → Bool × Nat × List Nat × List Nat
  | hidden, inter, emitted =>
      if 0 ≤ cmpList inter dds then (false, hidden, inter, emitted)
      else match hidden with
        | 0 => (true, 0, inter, emitted)
        | h + 1 =>
            let inter1 := nds.getD h 0 :: inter
            if cmpList inter1 dds < 0 then exposeGo nds dds h inter1 (emitted ++ [0])
            else (false, h, inter1, emitted)

/-- Do-while loop of the division general case (bigint.c:1848-1896),
returning the quotient digits in emission order (most significant first)
and the final intermediate (the remainder).  The fuel is one unit per
outer iteration; after the first subtraction every iteration consumes a
hidden digit, so `length(n) + 2` suffices. -/
def divLoop (nds dds : List Nat) :
    Nat → Nat → List Nat → List Nat → List Nat × List Nat
  | 0, _, inter, emitted => (emitted, inter)
  | fuel + 1, hidden, inter, emitted =>
      match exposeGo nds dds hidden inter emitted with
      | (true, _, inter1, emitted1) => (emitted1, inter1)
      | (false, hidden1, inter1, emitted1) =>
          let fi := factorGo dds 255 inter1 [] 1
          let emitted2 := emitted1 ++ [fi.1]
          if hidden1 = 0 then (emitted2, fi.2)
          else divLoop nds dds fuel hidden1 fi.2 emitted2

/-- General case of `bigint_div` (bigint.c:1824-1912) on digit lists, for
the usual call shape in which the quotient does not alias an operand (a
fresh quotient's digit buffer is zero-filled, so after the final right
shift by the unused digit positions the quotient's digits are exactly the
emitted digits, least significant first).  Returns (quotient digits,
remainder digits). -/
def divGeneral (nds dds : List Nat) : List Nat × List Nat :=
  let hidden := nds.length - dds.length
  let r := divLoop nds dds (nds.length + 2) hidden (nds.drop hidden) []
  (r.1.reverse, r.2)

/-- `set_signs:` of `bigint_div` (bigint.c:1914-1939): C truncated-division
sign rules, with `bigint_nez` guards exactly as in the source (the
both-positive case touches nothing). -/
def divSetSigns (n d : Bigint) (q r : Bigint) : Bigint × Bigint :=
  if n.negative ∧ d.negative then
    (⟨q.digits, false⟩, if ¬r.digits.isEmpty then ⟨r.digits, true⟩ else r)
  else if n.negative ∧ ¬d.negative then
    ((if ¬q.digits.isEmpty then ⟨q.digits, true⟩ else q),
     (if ¬r.digits.isEmpty then ⟨r.digits, true⟩ else r))
  else if ¬n.negative ∧ d.negative then
    ((if ¬q.digits.isEmpty then ⟨q.digits, true⟩ else q), ⟨r.digits, false⟩)
  else (q, r)

/-- `bigint_div` (bigint.c:1732) for the standard call shape: `q` freshly
allocated (or a zero-valued destination) and `*r` requested, with no
aliasing between the four arguments.  `none` models the `NULL`/`EDOM`
return for a zero divisor.  Fast paths in source order: `|d| = 1`
(bigint.c:1757), `|n| = |d|` (bigint.c:1776), `|n| < |d|` (bigint.c:1789),
`d` a power of two (bigint.c:1806); then the restoring long division. -/
def bigint_div (n d : Bigint) : Option (Bigint × Bigint) :=
  if d.digits.isEmpty then none
  else if d.digits.length = 1 ∧ d.digits.headD 0 = 1 then
    some (divSetSigns n d ⟨n.digits, false⟩ zeroBig)
  else
    let cmp := cmpList n.digits d.digits
    if cmp = 0 then some (divSetSigns n d oneBig zeroBig)
    else if cmp < 0 then some (divSetSigns n d zeroBig ⟨n.digits, n.negative⟩)
    else if isPow2List d.digits then
      some (divSetSigns n d (bigint_shri n (ctzList d.digits)) zeroBig)
    else
      let qr := divGeneral n.digits d.digits
      some (divSetSigns n d ⟨qr.1, false⟩ ⟨qr.2, if qr.2.isEmpty then false else n.negative⟩)

/-- One iteration of the base-10 loop of `bigint_snbprint`
(bigint.c:2388-2394): `bigint_div(accumulator, &remainder, accumulator,
TEN)` followed by `numeral = remainder->digits[0]`.  The second component
tracks the *physical* content of `remainder->digits[0]`, which outlives the
logical length:
* `|n| = |d|` path (bigint.c:1776-1788): `bigint_movui(*r, 0)` only sets
  `length = 0` (bigint.c:570-571) and leaves the digit slot untouched;
* `|n| < |d|` path (bigint.c:1789-1803): `bigint_mov(*r, n)` copies the
  numerator's digits, so slot 0 holds the accumulator's low digit;
* general path: the final `MAGNITUDE_RDELTA` writes the remainder's digits
  in place, so slot 0 holds the remainder's low digit (0 when the
  remainder is zero, because the subtraction wrote a 0 there).
The `|d| = 1` and power-of-two paths are unreachable for `d = TEN`.
For these divisor-10 paths the quotient aliasing `q == n == accumulator` is
benign: the quotient digits are written only after the intermediate has
been copied out of the shared buffer. -/
def fmt10Step (acc : List Nat) (r0 : Nat) : List Nat × Nat :=
  let cmp := cmpList acc TEN.digits
  if cmp = 0 then ([1], r0)
  else if cmp < 0 then ([], acc.headD 0)
  else
    let qr := divGeneral acc TEN.digits
    (qr.1, qr.2.headD 0)

/-- Numeral emission of `bigint_snbprint` (bigint.c:2409):
`(numeral > 9 ? 'a' - 10 : '0') + numeral`. -/
def numeralChar (n : Nat) : Char :=
  if n > 9 then Char.ofNat (97 - 10 + n) else Char.ofNat (48 + n)

/-- Base-10 digit loop of `bigint_snbprint` (bigint.c:2388-2427).  The C
code appends numerals least-significant first and reverses in place at the
end; prepending each numeral builds the reversed (final) string directly.
The fuel is one unit per emitted numeral. -/
def fmt10Loop : Nat → List Nat → Nat → List Char → List Char
  | 0, _, _, out => out
  | fuel + 1, acc, r0, out =>
      if acc.isEmpty then out
      else
        let st := fmt10Step acc r0
        fmt10Loop fuel st.1 st.2 (numeralChar st.2 :: out)

/-- `bigint_snbprint(buf, buflen, x, 10)` (bigint.c:2301) with a buffer
large enough to hold the output: optional sign (bigint.c:2335-2337), the
zero short-circuit (bigint.c:2340-2344), then the division loop.  The
remainder structure starts as `bigint_from_int(0)`, whose digit buffer is
zero-filled, so the tracked slot starts at 0. -/
def bigint_snprint10 (x : Bigint) : List Char :=
  let sign : List Char := if x.negative then ['-'] else []
  if x.digits.isEmpty then sign ++ ['0']
  else sign ++ fmt10Loop (3 * x.digits.length + 3) x.digits 0 []

/-- Digit accumulation step of `bigint_strtobif` (bigint.c:2203-2211):
`bigint_mul(dest, dest, small_number_cache[base])` followed by
`magnitude_sum(dest, dest, small_number_cache[value])`. -/
def accumDigit (dst : Bigint) (base v : Nat) : Bigint :=
  let m := bigint_mul dst (cacheBig base)
  magnitude_sum m.negative m (cacheBig v)

/-- Main character loop of `bigint_strtobif` (bigint.c:2158-2212).  `idx`
is the index of the current character in the whole input (standing for the
C pointer); `e`/`dec`/`eom` are the `exponent`, `decimal` and `eom` state.
Digits go into the exponent once one exists (`dest = exponent`,
bigint.c:2171), are skipped between a decimal point and the exponent
(bigint.c:2203), and accumulate into the result otherwise.  `none` is the
`EINVAL` exit. -/
def parseLoop (base : Nat) :
    List Char → Nat → Bigint → Option Bigint → Option Nat → Option Nat →
    Option (Bigint × Option Bigint × Option Nat × Option Nat)
  | [], _, result, e, dec, eom => some (result, e, dec, eom)
  | c :: cs, idx, result, e, dec, eom =>
      if base = 10 ∧ lorBits 8 c.toNat 32 = 101 then
        match e with
        | some _ => none
        | none =>
            parseLoop base cs (idx + 1) result (some zeroBig) dec
              (if dec.isSome then some (idx - 1) else eom)
      else if base = 10 ∧ c = '.' then
        if e.isSome ∨ dec.isSome then none
        else parseLoop base cs (idx + 1) result e (some idx) eom
      else
        let lc := lorBits 8 c.toNat 32
        let value? : Option Nat :=
          if 48 ≤ c.toNat ∧ c.toNat ≤ 57 then some (c.toNat - 48)
          else if 97 ≤ lc ∧ lc ≤ 122 then some (lc - 97 + 10)
          else none
        match value? with
        | none => none
        | some v =>
            if base ≤ v then none
            else if dec.isNone ∨ e.isSome then
              match e with
              | some ex => parseLoop base cs (idx + 1) result (some (accumDigit ex base v)) dec eom
              | none => parseLoop base cs (idx + 1) (accumDigit result base v) e dec eom
            else parseLoop base cs (idx + 1) result e dec eom

/-- `while (*eom == '0') eom--;` (bigint.c:2227-2229).  In reachable states
the walk stops at the decimal point at the latest; the base case at index 0
is unreachable there. -/
def trimZeros (s : List Char) : Nat → Nat
  | 0 => 0
  | i + 1 => if s.getD (i + 1) ' ' = '0' then trimZeros s i else i + 1

/-- Fractional-digit consumption loop of `bigint_strtobif`
(bigint.c:2234-2244): while the exponent is non-zero and buffered digits
remain, decrement the exponent and shift the next fractional digit into the
result.  Returns (result, exponent, next index); the fuel is one unit per
consumed digit. -/
def consumeGo (s : List Char) (eom : Nat) :
    Nat → Nat → Bigint → Bigint → Bigint × Bigint × Nat
  | 0, dec, result, e => (result, e, dec)
  | fuel + 1, dec, result, e =>
      if ¬e.digits.isEmpty ∧ dec ≤ eom then
        let e1 := bigint_dec e
        let m := bigint_mul result TEN
        let v := (s.getD dec ' ').toNat - 48
        consumeGo s eom fuel (dec + 1) (magnitude_sum m.negative m (cacheBig v)) e1
      else (result, e, dec)

/-- Epilogue of `bigint_strtobif` (bigint.c:2252-2270): normalize, apply a
remaining exponent via `bigint_pow(exponent, TEN, exponent)` and a final
multiplication, then apply the remembered sign to a non-zero result. -/
def parseFinish (negSign : Bool) (result : Bigint) (e : Option Bigint)
    (fraction : Option Nat) : Option (Bigint × Option Nat) :=
  let r1 := normalizeBig result
  match e with
  | none => some (⟨r1.digits, if r1.digits.isEmpty then r1.negative else negSign⟩, fraction)
  | some ex =>
      match bigint_pow TEN ex with
      | none => none
      | some p =>
          let r2 := bigint_mul r1 p
          some (⟨r2.digits, if r2.digits.isEmpty then r2.negative else negSign⟩, fraction)

/-- `bigint_strtobif` (bigint.c:2107): sign (bigint.c:2125-2130), base
prefix (bigint.c:2132-2156; a bare leading `0` chooses base 10 when a `.`
occurs later, base 8 otherwise), main loop, trailing-`e` check
(bigint.c:2215), fractional consumption (bigint.c:2220-2250) and epilogue.
The second component of the result is the fraction out-pointer, as an index
into the input (`none` = never assigned). -/
def bigint_strtobif (s : List Char) : Option (Bigint × Option Nat) :=
  let sign : Bool × List Char × Nat :=
    match s with
    | '+' :: r => (false, r, 1)
    | '-' :: r => (true, r, 1)
    | _ => (false, s, 0)
  let negSign := sign.1
  let pfx : Nat × List Char × Nat :=
    match sign.2.1 with
    | '0' :: r =>
        match r with
        | 'b' :: r2 => (2, r2, sign.2.2 + 2)
        | 'B' :: r2 => (2, r2, sign.2.2 + 2)
        | 'o' :: r2 => (8, r2, sign.2.2 + 2)
        | 'O' :: r2 => (8, r2, sign.2.2 + 2)
        | 'x' :: r2 => (16, r2, sign.2.2 + 2)
        | 'X' :: r2 => (16, r2, sign.2.2 + 2)
        | _ => (if r.contains '.' then 10 else 8, r, sign.2.2 + 1)
    | _ => (10, sign.2.1, sign.2.2)
  match parseLoop pfx.1 pfx.2.1 pfx.2.2 zeroBig none none none with
  | none => none
  | some st =>
      let result := st.1
      let e := st.2.1
      let dec := st.2.2.1
      let eom := st.2.2.2
      if e.isSome ∧ lorBits 8 (s.getLastD ' ').toNat 32 = 101 then none
      else
        match e, dec with
        | some ex, some decIdx =>
            let eomIdx := trimZeros s (match eom with | some j => j | none => s.length - 1)
            if eomIdx ≠ decIdx then
              let t := consumeGo s eomIdx (eomIdx + 1 - (decIdx + 1)) (decIdx + 1) result ex
              parseFinish negSign t.1 (some t.2.1)
                (if t.2.2 ≠ eomIdx then some t.2.2 else none)
            else parseFinish negSign result (some ex) none
        | some ex, none => parseFinish negSign result (some ex) none
        | none, _ => parseFinish negSign result none none

/-- `bigint_strtobi` (bigint.c:2281): parse without a fraction pointer. -/
def bigint_strtobi (s : List Char) : Option Bigint :=
  Option.map Prod.fst (bigint_strtobif s)

/-- `bigint_div(q, NULL, n, d)` when `q` and `d` are the same freshly
created object (digit slack zero-filled) and the general path is taken, for
non-negative operands with `|n| > |d|`, `|d| ≠ 1`, `d` not a power of two.
The aliasing has two effects visible here:
* `resize(q, n->length)` (bigint.c:1836) pads the shared object's digits to
  `n`'s length with zeros *before* `hidden_digits = n->length - d->length`
  (bigint.c:1844) is computed, so `hidden_digits = 0` and the intermediate
  keeps all of `n`'s digits;
* the quotient-digit store `q->digits[q->length - quotient_digits - 1]`
  (bigint.c:1892) writes into the divisor object.
With no hidden digits the do-while exits after a single factor round (the
exposure loop never runs because `|n| > |d|` makes the first comparison
positive); the final digit-aligned right shift and the
`q->length = quotient_digits` assignment (bigint.c:1911-1912) keep exactly
the one written digit, and `set_signs:` touches nothing for non-negative
operands. -/
def bigint_div_alias_qd (n d : Bigint) : Bigint :=
  let nLen := n.digits.length
  let qd0 := d.digits ++ List.replicate (nLen - d.digits.length) 0
  let fi := factorGo qd0 255 n.digits [] 1
  let qd1 := qd0.set (nLen - 1) fi.1
  ⟨qd1.drop (nLen - 1), false⟩

/-- Digit loop of `magnitude_sum` when `dest == a` (bigint.c:929-942),
modelled on the shared digit buffer: the augend digit at the current offset
is read from the buffer that the previous iterations have already written
(`buf.getD off`), and the column result is stored back at the same offset.
The buffer starts as `a`'s digits padded to `max_length`; the padding slots
are only ever written (branch `offset >= a_length` reads `b` alone), so
their initial content is immaterial.  The final append is the escaped-carry
store after `resize_sum` (bigint.c:944-950). -/
def sumInplaceGoA (aLen bLen : Nat) (bGet : Nat → Nat) :
    Nat → Nat → Nat → List Nat → List Nat
  | 0, _, c, buf => if c ≠ 0 then buf ++ [c] else buf
  | fuel + 1, off, c, buf =>
      let s :=
        if aLen ≤ off then bGet off + c
        else if bLen ≤ off then buf.getD off 0 + c
        else buf.getD off 0 + bGet off + c
      sumInplaceGoA aLen bLen bGet fuel (off + 1) (s / 256) (buf.set off (s % 256))

/-- `magnitude_sum(dest, a, b)` with `dest == a`: the saved lengths
(bigint.c:914-915) are the untouched `a_length`/`b_length`; reads of
`a->digits` hit the buffer being written. -/
def magnitude_sum_dest_a (a b : Bigint) : Bigint :=
  if a.digits = [] ∧ b.digits = [] then ⟨[], false⟩
  else
    normalizeBig ⟨sumInplaceGoA a.digits.length b.digits.length
        (fun i => b.digits.getD i 0) (max a.digits.length b.digits.length) 0 0
        (a.digits ++ List.replicate (max a.digits.length b.digits.length - a.digits.length) 0),
      a.negative⟩

/-- Digit loop of `magnitude_sum` when `dest == b`: reads of `b->digits`
hit the buffer being written, reads of `a->digits` the pristine operand. -/
def sumInplaceGoB (aLen bLen : Nat) (aGet : Nat → Nat) :
    Nat → Nat → Nat → List Nat → List Nat
  | 0, _, c, buf => if c ≠ 0 then buf ++ [c] else buf
  | fuel + 1, off, c, buf =>
      let s :=
        if aLen ≤ off then buf.getD off 0 + c
        else if bLen ≤ off then aGet off + c
        else aGet off + buf.getD off 0 + c
      sumInplaceGoB aLen bLen aGet fuel (off + 1) (s / 256) (buf.set off (s % 256))

/-- `magnitude_sum(dest, a, b)` with `dest == b`. -/
def magnitude_sum_dest_b (a b : Bigint) : Bigint :=
  if a.digits = [] ∧ b.digits = [] then ⟨[], false⟩
  else
    normalizeBig ⟨sumInplaceGoB a.digits.length b.digits.length
        (fun i => a.digits.getD i 0) (max a.digits.length b.digits.length) 0 0
        (b.digits ++ List.replicate (max a.digits.length b.digits.length - b.digits.length) 0),
      b.negative⟩

/-! ### Basic value lemmas -/

theorem natVal_append (xs ys : List Nat) :
    natVal (xs ++ ys) = natVal xs + 256 ^ xs.length * natVal ys := by
  induction xs with
  | nil => simp [natVal]
  | cons d ds ih => simp [natVal, ih, pow_succ]; ring

theorem natVal_lt (ds : List Nat) (h : digitsOk ds) : natVal ds < 256 ^ ds.length := by
  induction ds with
  | nil => simp [natVal]
  | cons d t ih =>
      have hd : d < 256 := h d (by simp)
      have ht : natVal t < 256 ^ t.length := ih (fun x hx => h x (by simp [hx]))
      have : natVal t + 1 ≤ 256 ^ t.length := ht
      calc d + 256 * natVal t < 256 + 256 * natVal t := by omega
        _ = 256 * (natVal t + 1) := by ring
        _ ≤ 256 * 256 ^ t.length := by
              exact Nat.mul_le_mul_left _ this
        _ = 256 ^ (t.length + 1) := by rw [pow_succ]; ring

theorem natVal_replicate_zero (k : Nat) : natVal (List.replicate k 0) = 0 := by
  induction k with
  | zero => rfl
  | succ n ih => simp [List.replicate, natVal, ih]

theorem msbVal_append_singleton (l : List Nat) (d : Nat) :
    msbVal (l ++ [d]) = 256 * msbVal l + d := by
  simp [msbVal, List.foldl_append]; ring

theorem natVal_eq_msbVal_reverse (ds : List Nat) : natVal ds = msbVal ds.reverse := by
  induction ds with
  | nil => rfl
  | cons d t ih =>
      simp [natVal, List.reverse_cons, msbVal_append_singleton, ih]; ring

/-! ### Normalization lemmas -/

theorem msbVal_stripZeros (l : List Nat) : msbVal (stripZeros l) = msbVal l := by
  induction l with
  | nil => rfl
  | cons d t ih =>
      match d with
      | 0 => simpa [stripZeros, msbVal] using ih
      | d + 1 => rfl

theorem stripZeros_sublist (l : List Nat) : (stripZeros l).Sublist l := by
  induction l with
  | nil => simp [stripZeros]
  | cons d t ih =>
      match d with
      | 0 => exact (ih.trans (List.sublist_cons_self 0 t))
      | d + 1 => simp [stripZeros]

theorem stripZeros_head (l : List Nat) :
    stripZeros l = [] ∨ ∃ d t, stripZeros l = d :: t ∧ d ≠ 0 := by
  induction l with
  | nil => left; rfl
  | cons d t ih =>
      match d with
      | 0 => simpa [stripZeros] using ih
      | d + 1 => right; exact ⟨d + 1, t, rfl, by omega⟩

theorem natVal_normalizeDigits (ds : List Nat) :
    natVal (normalizeDigits ds) = natVal ds := by
  rw [natVal_eq_msbVal_reverse, natVal_eq_msbVal_reverse, normalizeDigits,
    List.reverse_reverse, msbVal_stripZeros]

theorem normalizedDigits_normalizeDigits (ds : List Nat) :
    normalizedDigits (normalizeDigits ds) := by
  unfold normalizedDigits normalizeDigits
  rcases stripZeros_head ds.reverse with h | ⟨d, t, h, hd⟩
  · simp [h]
  · simp [h, List.getLast?_reverse]; omega

theorem digitsOk_normalizeDigits (ds : List Nat) (h : digitsOk ds) :
    digitsOk (normalizeDigits ds) := by
  intro d hd
  apply h
  have : d ∈ stripZeros ds.reverse := by
    simpa [normalizeDigits] using hd
  have := (stripZeros_sublist ds.reverse).mem this
  simpa using this

theorem normalizeDigits_eq_self (ds : List Nat) (h : normalizedDigits ds) :
    normalizeDigits ds = ds := by
  unfold normalizeDigits
  induction ds using List.reverseRecOn with
  | nil => rfl
  | append_singleton t d _ =>
      unfold normalizedDigits at h
      simp at h
      rw [List.reverse_append]
      simp only [List.reverse_singleton, List.singleton_append]
      match d, h with
      | d + 1, _ => simp [stripZeros]

theorem normalizeDigits_nil_iff (ds : List Nat) :
    normalizeDigits ds = [] ↔ natVal ds = 0 := by
  constructor
  · intro h
    have := natVal_normalizeDigits ds
    rw [h] at this
    simpa [natVal] using this.symm
  · intro h
    rcases stripZeros_head ds.reverse with hs | ⟨d, t, hs, hd⟩
    · simp [normalizeDigits, hs]
    · exfalso
      have h1 : natVal (normalizeDigits ds) = 0 := by rw [natVal_normalizeDigits, h]
      have h2 : (normalizeDigits ds).getLast? ≠ some 0 := normalizedDigits_normalizeDigits ds
      unfold normalizeDigits at h1 h2
      rw [hs] at h1 h2
      rw [natVal_eq_msbVal_reverse, List.reverse_reverse] at h1
      have : 0 < msbVal (d :: t) := by
        have h3 : msbVal (d :: t) = natVal ((d :: t).reverse) := by
          rw [natVal_eq_msbVal_reverse, List.reverse_reverse]
        rw [h3, List.reverse_cons, natVal_append]
        simp [natVal]
        right
        omega
      omega

theorem natVal_pos_of_normalized (ds : List Nat) (h : normalizedDigits ds)
    (hne : ds ≠ []) : 256 ^ (ds.length - 1) ≤ natVal ds := by
  induction ds using List.reverseRecOn with
  | nil => exact absurd rfl hne
  | append_singleton t d _ =>
      unfold normalizedDigits at h
      simp at h
      have hd : 1 ≤ d := by omega
      rw [natVal_append]
      simp [natVal]
      calc 256 ^ t.length = 256 ^ t.length * 1 := by ring
        _ ≤ 256 ^ t.length * d := Nat.mul_le_mul_left _ hd
        _ ≤ natVal t + 256 ^ t.length * d := Nat.le_add_left _ _

theorem normalizeBig_valid (ds : List Nat) (neg : Bool) (h : digitsOk ds) :
    (normalizeBig ⟨ds, neg⟩).Valid := by
  refine ⟨digitsOk_normalizeDigits ds h, normalizedDigits_normalizeDigits ds, ?_⟩
  intro hneg
  simp only [normalizeBig] at hneg ⊢
  intro hempty
  simp [hempty] at hneg

theorem normalizeDigits_eq_self_of_le (ds : List Nat) (hok : digitsOk ds)
    (h : 256 ^ (ds.length - 1) ≤ natVal ds) (hne : ds ≠ []) :
    normalizeDigits ds = ds := by
  induction ds using List.reverseRecOn with
  | nil => exact absurd rfl hne
  | append_singleton t d _ =>
      rcases Nat.eq_zero_or_pos d with rfl | hd
      · exfalso
        rw [natVal_append] at h
        simp [natVal] at h
        have := natVal_lt t (fun x hx => hok x (by simp [hx]))
        omega
      · apply normalizeDigits_eq_self
        unfold normalizedDigits
        simp
        omega

/-! ### Sum lemmas -/

theorem carry_split (r x k : Nat) (hr : r < 256) :
    256 ^ (k + 1) ≤ r + 256 * x ↔ 256 ^ k ≤ x := by
  constructor
  · intro h
    rw [pow_succ] at h
    by_contra hx
    push_neg at hx
    have : x + 1 ≤ 256 ^ k := hx
    have : 256 * x + 256 ≤ 256 ^ k * 256 := by
      calc 256 * x + 256 = 256 * (x + 1) := by ring
        _ ≤ 256 * 256 ^ k := Nat.mul_le_mul_left _ hx
        _ = 256 ^ k * 256 := by ring
    omega
  · intro h
    rw [pow_succ]
    calc 256 ^ k * 256 ≤ x * 256 := Nat.mul_le_mul_right _ h
      _ = 256 * x := by ring
      _ ≤ r + 256 * x := Nat.le_add_left _ _

theorem sumCarry_val (bs : List Nat) (c : Nat) :
    natVal (sumCarry bs c) = natVal bs + c := by
  induction bs generalizing c with
  | nil =>
      by_cases h : c = 0 <;> simp [sumCarry, h, natVal]
  | cons b t ih =>
      simp only [sumCarry, natVal, ih]
      omega

theorem sumCarry_ok (bs : List Nat) (c : Nat) (hok : digitsOk bs) (hc : c ≤ 1) :
    digitsOk (sumCarry bs c) := by
  induction bs generalizing c with
  | nil =>
      intro d hd
      by_cases h : c = 0
      · simp [sumCarry, h] at hd
      · simp [sumCarry, h] at hd
        omega
  | cons b t ih =>
      intro d hd
      simp only [sumCarry] at hd
      rcases List.mem_cons.mp hd with rfl | hm
      · exact Nat.mod_lt _ (by omega)
      · have hb : b < 256 := hok b (by simp)
        exact ih ((b + c) / 256) (fun x hx => hok x (by simp [hx])) (by omega) d hm

theorem sumCarry_length (bs : List Nat) (c : Nat) (hok : digitsOk bs) (hc : c ≤ 1) :
    (sumCarry bs c).length =
      bs.length + (if 256 ^ bs.length ≤ natVal bs + c then 1 else 0) := by
  induction bs generalizing c with
  | nil =>
      by_cases h : c = 0
      · simp [sumCarry, h, natVal]
      · have h1 : 1 ≤ c := by omega
        simp [sumCarry, h, natVal, h1]
  | cons b t ih =>
      have hb : b < 256 := hok b (by simp)
      have ht : digitsOk t := fun x hx => hok x (by simp [hx])
      simp only [sumCarry, List.length_cons, ih ((b + c) / 256) ht (by omega)]
      have hsplit : 256 ^ (t.length + 1) ≤ (b + 256 * natVal t) + c ↔
          256 ^ t.length ≤ natVal t + (b + c) / 256 := by
        have h1 : (b + 256 * natVal t) + c = (b + c) % 256 + 256 * (natVal t + (b + c) / 256) := by
          omega
        rw [h1]
        exact carry_split _ _ _ (Nat.mod_lt _ (by omega))
      simp only [natVal]
      by_cases hcase : 256 ^ t.length ≤ natVal t + (b + c) / 256
      · rw [if_pos hcase, if_pos (hsplit.mpr hcase)]
      · rw [if_neg hcase, if_neg (fun hx => hcase (hsplit.mp hx))]

theorem sumGo_nil (bs : List Nat) (c : Nat) : sumGo [] bs c = sumCarry bs c := by
  cases bs <;> rfl

theorem sumGo_nil_right (as : List Nat) (c : Nat) : sumGo as [] c = sumCarry as c := by
  cases as <;> rfl

theorem sumGo_val (as bs : List Nat) (c : Nat) :
    natVal (sumGo as bs c) = natVal as + natVal bs + c := by
  induction as generalizing bs c with
  | nil => simp [sumGo_nil, sumCarry_val, natVal]
  | cons a t ih =>
      cases bs with
      | nil =>
          rw [sumGo_nil_right, sumCarry_val]
          simp [natVal]
      | cons b u =>
          simp only [sumGo, natVal, ih]
          omega

theorem sumGo_ok (as bs : List Nat) (c : Nat) (ha : digitsOk as) (hb : digitsOk bs)
    (hc : c ≤ 1) : digitsOk (sumGo as bs c) := by
  induction as generalizing bs c with
  | nil => rw [sumGo_nil]; exact sumCarry_ok bs c hb hc
  | cons a t ih =>
      cases bs with
      | nil => rw [sumGo_nil_right]; exact sumCarry_ok (a :: t) c ha hc
      | cons b u =>
          intro d hd
          have ha' : a < 256 := ha a (by simp)
          have hb' : b < 256 := hb b (by simp)
          simp only [sumGo] at hd
          rcases List.mem_cons.mp hd with rfl | hm
          · exact Nat.mod_lt _ (by omega)
          · exact ih u ((a + b + c) / 256) (fun x hx => ha x (by simp [hx]))
              (fun x hx => hb x (by simp [hx])) (by omega) d hm

theorem sumGo_length (as bs : List Nat) (c : Nat) (ha : digitsOk as) (hb : digitsOk bs)
    (hc : c ≤ 1) :
    (sumGo as bs c).length = max as.length bs.length +
      (if 256 ^ max as.length bs.length ≤ natVal as + natVal bs + c then 1 else 0) := by
  induction as generalizing bs c with
  | nil =>
      rw [sumGo_nil]
      simpa [natVal] using sumCarry_length bs c hb hc
  | cons a t ih =>
      cases bs with
      | nil =>
          rw [sumGo_nil_right]
          have := sumCarry_length (a :: t) c ha hc
          simpa [natVal] using this
      | cons b u =>
          have ha' : a < 256 := ha a (by simp)
          have hb' : b < 256 := hb b (by simp)
          have ht : digitsOk t := fun x hx => ha x (by simp [hx])
          have hu : digitsOk u := fun x hx => hb x (by simp [hx])
          simp only [sumGo, List.length_cons, ih u ((a + b + c) / 256) ht hu (by omega)]
          have hmax : max (t.length + 1) (u.length + 1) = max t.length u.length + 1 := by
            omega
          have h1 : natVal (a :: t) + natVal (b :: u) + c =
              (a + b + c) % 256 + 256 * (natVal t + natVal u + (a + b + c) / 256) := by
            simp only [natVal]
            omega
          have hsplit : 256 ^ (max t.length u.length + 1) ≤ natVal (a :: t) + natVal (b :: u) + c ↔
              256 ^ max t.length u.length ≤ natVal t + natVal u + (a + b + c) / 256 := by
            rw [h1]
            exact carry_split _ _ _ (Nat.mod_lt _ (by omega))
          simp only [hmax]
          by_cases hcase : 256 ^ max t.length u.length ≤ natVal t + natVal u + (a + b + c) / 256
          · rw [if_pos hcase, if_pos (hsplit.mpr hcase)]
          · rw [if_neg hcase, if_neg (fun hx => hcase (hsplit.mp hx))]

theorem magnitude_sum_val (neg : Bool) (a b : Bigint) :
    natVal (magnitude_sum neg a b).digits = natVal a.digits + natVal b.digits := by
  unfold magnitude_sum
  by_cases h : a.digits = [] ∧ b.digits = []
  · rw [if_pos h]
    simp [h.1, h.2, natVal]
  · rw [if_neg h]
    show natVal (normalizeDigits (sumGo a.digits b.digits 0)) = _
    rw [natVal_normalizeDigits, sumGo_val]
    omega

theorem magnitude_sum_length (neg : Bool) (a b : Bigint)
    (ha : a.Valid) (hb : b.Valid) :
    (magnitude_sum neg a b).digits.length = max a.digits.length b.digits.length +
      (if 256 ^ max a.digits.length b.digits.length ≤ natVal a.digits + natVal b.digits
        then 1 else 0) := by
  unfold magnitude_sum
  by_cases h : a.digits = [] ∧ b.digits = []
  · rw [if_pos h]
    simp [h.1, h.2, natVal]
  · rw [if_neg h]
    show (normalizeDigits (sumGo a.digits b.digits 0)).length = _
    have hok := sumGo_ok a.digits b.digits 0 ha.1 hb.1 (by omega)
    have hlen := sumGo_length a.digits b.digits 0 ha.1 hb.1 (by omega)
    have hval := sumGo_val a.digits b.digits 0
    simp only [Nat.add_zero] at hlen hval
    set maxL := max a.digits.length b.digits.length with hm
    have hSpos : 256 ^ (maxL - 1) ≤ natVal a.digits + natVal b.digits := by
      rcases le_total a.digits.length b.digits.length with hle | hle
      · have hbe : b.digits ≠ [] := by
          intro hbnil
          apply h
          rw [hbnil] at hle
          simp at hle
          exact ⟨hle, hbnil⟩
        have hpos := natVal_pos_of_normalized b.digits hb.2.1 hbe
        have hmb : maxL = b.digits.length := by omega
        rw [hmb]
        omega
      · have hae : a.digits ≠ [] := by
          intro hanil
          apply h
          rw [hanil] at hle
          simp at hle
          exact ⟨hanil, hle⟩
        have hpos := natVal_pos_of_normalized a.digits ha.2.1 hae
        have hma : maxL = a.digits.length := by omega
        rw [hma]
        omega
    have hne : sumGo a.digits b.digits 0 ≠ [] := by
      intro hnil
      rw [hnil] at hval
      have h1 : natVal a.digits + natVal b.digits = 0 := by
        simpa [natVal] using hval.symm
      have h2 : (0 : Nat) < 256 ^ (maxL - 1) := Nat.pos_pow_of_pos _ (by omega)
      omega
    have hself : normalizeDigits (sumGo a.digits b.digits 0) = sumGo a.digits b.digits 0 := by
      apply normalizeDigits_eq_self_of_le _ hok _ hne
      rw [hlen, hval]
      by_cases hcarry : 256 ^ maxL ≤ natVal a.digits + natVal b.digits
      · rw [if_pos hcarry]
        simpa using hcarry
      · rw [if_neg hcarry]
        exact hSpos
    rw [hself, hlen]

theorem magnitude_sum_valid (neg : Bool) (a b : Bigint)
    (ha : a.Valid) (hb : b.Valid) : (magnitude_sum neg a b).Valid := by
  unfold magnitude_sum
  by_cases h : a.digits = [] ∧ b.digits = []
  · rw [if_pos h]
    exact ⟨by intro d hd; simp at hd, by simp [normalizedDigits], by simp⟩
  · rw [if_neg h]
    exact normalizeBig_valid _ _ (sumGo_ok a.digits b.digits 0 ha.1 hb.1 (by omega))

/-! ### In-place (aliased destination) sum equals the plain sum -/

theorem set_append_len (l1 l2 : List Nat) (v : Nat) :
    (l1 ++ l2).set l1.length v = l1 ++ l2.set 0 v := by
  induction l1 with
  | nil => simp
  | cons x t ih => simp [List.set, ih]

theorem getD_append_len (l1 l2 : List Nat) : (l1 ++ l2).getD l1.length 0 = l2.headD 0 := by
  rw [List.getD_append_right _ _ _ _ (le_refl _), Nat.sub_self]
  cases l2 <;> rfl

theorem drop_cons_getD (l : List Nat) (n : Nat) (h : n < l.length) :
    l.drop n = l.getD n 0 :: l.drop (n + 1) := by
  rw [List.drop_eq_getElem_cons h, List.getD_eq_getElem l 0 h]

theorem sumInplaceGoA_eq (as bs : List Nat) (fuel : Nat) :
    ∀ off c pre, off = pre.length → off + fuel = max as.length bs.length →
      sumInplaceGoA as.length bs.length (fun i => bs.getD i 0) fuel off c
        (pre ++ (as ++ List.replicate (max as.length bs.length - as.length) 0).drop off) =
      pre ++ sumGo (as.drop off) (bs.drop off) c := by
  induction fuel with
  | zero =>
      intro off c pre hoff hsum
      have hplen : (as ++ List.replicate (max as.length bs.length - as.length) 0).length
          = max as.length bs.length := by
        simp
        try omega
      have h1 : (as ++ List.replicate (max as.length bs.length - as.length) 0).drop off = [] :=
        List.drop_eq_nil_of_le (by omega)
      have h2 : as.drop off = [] := List.drop_eq_nil_of_le (by omega)
      have h3 : bs.drop off = [] := List.drop_eq_nil_of_le (by omega)
      rw [h1, h2, h3, sumGo_nil]
      simp only [sumInplaceGoA, sumCarry]
      by_cases hc : c = 0 <;> simp [hc]
  | succ fuel ih =>
      intro off c pre hoff hsum
      have hofflt : off < max as.length bs.length := by omega
      have hplen : (as ++ List.replicate (max as.length bs.length - as.length) 0).length
          = max as.length bs.length := by
        simp
        try omega
      have hdlt : off < (as ++ List.replicate (max as.length bs.length - as.length) 0).length := by
        omega
      have hcons := drop_cons_getD _ _ hdlt
      have hget : (pre ++ (as ++ List.replicate (max as.length bs.length - as.length) 0).drop off).getD off 0
          = (as ++ List.replicate (max as.length bs.length - as.length) 0).getD off 0 := by
        rw [hcons, hoff, getD_append_len]
        rfl
      have hset : ∀ v, (pre ++ (as ++ List.replicate (max as.length bs.length - as.length) 0).drop off).set off v
          = (pre ++ [v]) ++ (as ++ List.replicate (max as.length bs.length - as.length) 0).drop (off + 1) := by
        intro v
        rw [hcons, hoff, set_append_len]
        simp
      by_cases haL : as.length ≤ off
      · -- first operand exhausted: the column reads only `b` and the carry
        have hbL : off < bs.length := by omega
        have hbcons := drop_cons_getD bs off hbL
        have hacons : as.drop off = [] := List.drop_eq_nil_of_le haL
        have hanext : as.drop (off + 1) = [] := List.drop_eq_nil_of_le (by omega)
        simp only [sumInplaceGoA, if_pos haL]
        rw [hset, ih (off + 1) ((bs.getD off 0 + c) / 256) (pre ++ [(bs.getD off 0 + c) % 256])
          (by simp; omega) (by omega)]
        rw [hacons, hanext, hbcons, sumGo_nil, sumGo_nil, sumCarry]
        try simp
      · have haL2 : off < as.length := by omega
        have hacons := drop_cons_getD as off haL2
        have hpview : (as ++ List.replicate (max as.length bs.length - as.length) 0).getD off 0
            = as.getD off 0 := List.getD_append _ _ _ _ haL2
        by_cases hbL : bs.length ≤ off
        · -- second operand exhausted: the column reads the live buffer and the carry
          have hbcons : bs.drop off = [] := List.drop_eq_nil_of_le hbL
          have hbnext : bs.drop (off + 1) = [] := List.drop_eq_nil_of_le (by omega)
          simp only [sumInplaceGoA, if_neg haL, if_pos hbL]
          rw [hget, hpview, hset,
            ih (off + 1) ((as.getD off 0 + c) / 256) (pre ++ [(as.getD off 0 + c) % 256])
            (by simp; omega) (by omega)]
          rw [hacons, hbcons, hbnext, sumGo_nil_right, sumGo_nil_right, sumCarry]
          try simp
        · -- both operands live
          have hbL2 : off < bs.length := by omega
          have hbcons := drop_cons_getD bs off hbL2
          simp only [sumInplaceGoA, if_neg haL, if_neg hbL]
          rw [hget, hpview, hset,
            ih (off + 1) ((as.getD off 0 + bs.getD off 0 + c) / 256)
              (pre ++ [(as.getD off 0 + bs.getD off 0 + c) % 256])
            (by simp; omega) (by omega)]
          rw [hacons, hbcons]
          simp only [sumGo]
          simp

theorem sumInplaceGoB_eq (as bs : List Nat) (fuel : Nat) :
    ∀ off c pre, off = pre.length → off + fuel = max as.length bs.length →
      sumInplaceGoB as.length bs.length (fun i => as.getD i 0) fuel off c
        (pre ++ (bs ++ List.replicate (max as.length bs.length - bs.length) 0).drop off) =
      pre ++ sumGo (as.drop off) (bs.drop off) c := by
  induction fuel with
  | zero =>
      intro off c pre hoff hsum
      have hplen : (bs ++ List.replicate (max as.length bs.length - bs.length) 0).length
          = max as.length bs.length := by
        simp
        try omega
      have h1 : (bs ++ List.replicate (max as.length bs.length - bs.length) 0).drop off = [] :=
        List.drop_eq_nil_of_le (by omega)
      have h2 : as.drop off = [] := List.drop_eq_nil_of_le (by omega)
      have h3 : bs.drop off = [] := List.drop_eq_nil_of_le (by omega)
      rw [h1, h2, h3, sumGo_nil]
      simp only [sumInplaceGoB, sumCarry]
      by_cases hc : c = 0 <;> simp [hc]
  | succ fuel ih =>
      intro off c pre hoff hsum
      have hofflt : off < max as.length bs.length := by omega
      have hplen : (bs ++ List.replicate (max as.length bs.length - bs.length) 0).length
          = max as.length bs.length := by
        simp
        try omega
      have hdlt : off < (bs ++ List.replicate (max as.length bs.length - bs.length) 0).length := by
        omega
      have hcons := drop_cons_getD _ _ hdlt
      have hget : (pre ++ (bs ++ List.replicate (max as.length bs.length - bs.length) 0).drop off).getD off 0
          = (bs ++ List.replicate (max as.length bs.length - bs.length) 0).getD off 0 := by
        rw [hcons, hoff, getD_append_len]
        rfl
      have hset : ∀ v, (pre ++ (bs ++ List.replicate (max as.length bs.length - bs.length) 0).drop off).set off v
          = (pre ++ [v]) ++ (bs ++ List.replicate (max as.length bs.length - bs.length) 0).drop (off + 1) := by
        intro v
        rw [hcons, hoff, set_append_len]
        simp
      by_cases haL : as.length ≤ off
      · -- first operand exhausted: the column reads the live buffer and the carry
        have hbL : off < bs.length := by omega
        have hbcons := drop_cons_getD bs off hbL
        have hpview : (bs ++ List.replicate (max as.length bs.length - bs.length) 0).getD off 0
            = bs.getD off 0 := List.getD_append _ _ _ _ hbL
        have hacons : as.drop off = [] := List.drop_eq_nil_of_le haL
        have hanext : as.drop (off + 1) = [] := List.drop_eq_nil_of_le (by omega)
        simp only [sumInplaceGoB, if_pos haL]
        rw [hget, hpview, hset,
          ih (off + 1) ((bs.getD off 0 + c) / 256) (pre ++ [(bs.getD off 0 + c) % 256])
          (by simp; omega) (by omega)]
        rw [hacons, hanext, hbcons, sumGo_nil, sumGo_nil, sumCarry]
        try simp
      · have haL2 : off < as.length := by omega
        have hacons := drop_cons_getD as off haL2
        by_cases hbL : bs.length ≤ off
        · -- second operand exhausted: the column reads only `a` and the carry
          have hbcons : bs.drop off = [] := List.drop_eq_nil_of_le hbL
          have hbnext : bs.drop (off + 1) = [] := List.drop_eq_nil_of_le (by omega)
          simp only [sumInplaceGoB, if_neg haL, if_pos hbL]
          rw [hset,
            ih (off + 1) ((as.getD off 0 + c) / 256) (pre ++ [(as.getD off 0 + c) % 256])
            (by simp; omega) (by omega)]
          rw [hacons, hbcons, hbnext, sumGo_nil_right, sumGo_nil_right, sumCarry]
          try simp
        · -- both operands live
          have hbL2 : off < bs.length := by omega
          have hbcons := drop_cons_getD bs off hbL2
          have hpview : (bs ++ List.replicate (max as.length bs.length - bs.length) 0).getD off 0
              = bs.getD off 0 := List.getD_append _ _ _ _ hbL2
          simp only [sumInplaceGoB, if_neg haL, if_neg hbL]
          rw [hget, hpview, hset,
            ih (off + 1) ((as.getD off 0 + bs.getD off 0 + c) / 256)
              (pre ++ [(as.getD off 0 + bs.getD off 0 + c) % 256])
            (by simp; omega) (by omega)]
          rw [hacons, hbcons]
          simp only [sumGo]
          simp

theorem magnitude_sum_dest_b_eq (a b : Bigint) :
    magnitude_sum_dest_b a b = magnitude_sum b.negative a b := by
  unfold magnitude_sum_dest_b magnitude_sum
  by_cases h : a.digits = [] ∧ b.digits = []
  · rw [if_pos h, if_pos h]
  · rw [if_neg h, if_neg h]
    have := sumInplaceGoB_eq a.digits b.digits (max a.digits.length b.digits.length)
      0 0 [] rfl (by omega)
    simp only [List.drop_zero, List.nil_append] at this
    rw [this]

theorem magnitude_sum_dest_a_eq (a b : Bigint) :
    magnitude_sum_dest_a a b = magnitude_sum a.negative a b := by
  unfold magnitude_sum_dest_a magnitude_sum
  by_cases h : a.digits = [] ∧ b.digits = []
  · rw [if_pos h, if_pos h]
  · rw [if_neg h, if_neg h]
    have := sumInplaceGoA_eq a.digits b.digits (max a.digits.length b.digits.length)
      0 0 [] rfl (by omega)
    simp only [List.drop_zero, List.nil_append] at this
    rw [this]

/-! ### Increment/decrement lemmas -/

theorem normalizeBig_digits (ds : List Nat) (neg : Bool) :
    (normalizeBig ⟨ds, neg⟩).digits = normalizeDigits ds := rfl

theorem normalizeBig_negative (ds : List Nat) (neg : Bool) :
    (normalizeBig ⟨ds, neg⟩).negative =
      if (normalizeDigits ds).isEmpty then false else neg := rfl

theorem normalizeBig_negative_val (ds : List Nat) (neg : Bool) :
    (normalizeBig ⟨ds, neg⟩).negative = if natVal ds = 0 then false else neg := by
  rw [normalizeBig_negative]
  by_cases h : natVal ds = 0
  · rw [if_pos h, if_pos]
    rw [List.isEmpty_iff]
    exact (normalizeDigits_nil_iff ds).mpr h
  · rw [if_neg h, if_neg]
    rw [List.isEmpty_iff]
    intro hnil
    exact h ((normalizeDigits_nil_iff ds).mp hnil)

theorem borrowFrom_ok (ds : List Nat) (h : digitsOk ds) : digitsOk (borrowFrom ds) := by
  induction ds with
  | nil => simpa [borrowFrom] using h
  | cons d t ih =>
      cases d with
      | zero =>
          intro x hx
          simp only [borrowFrom] at hx
          rcases List.mem_cons.mp hx with rfl | hm
          · omega
          · exact ih (fun y hy => h y (by simp [hy])) x hm
      | succ e =>
          intro x hx
          simp only [borrowFrom] at hx
          rcases List.mem_cons.mp hx with heq | hm
          · have := h (e + 1) (by simp)
            omega
          · exact h x (by simp [hm])

theorem borrowFrom_val (ds : List Nat) (h : 1 ≤ natVal ds) :
    natVal (borrowFrom ds) = natVal ds - 1 := by
  induction ds with
  | nil => simp [natVal] at h
  | cons d t ih =>
      match d with
      | 0 =>
          have ht : 1 ≤ natVal t := by
            simp [natVal] at h
            omega
          simp only [borrowFrom, natVal, ih ht]
          omega
      | d + 1 => simp [borrowFrom, natVal]

theorem incGo_val (ds : List Nat) (h : digitsOk ds) :
    natVal (incGo ds) = natVal ds + 1 := by
  induction ds with
  | nil => simp [incGo, natVal]
  | cons d t ih =>
      have hd : d < 256 := h d (by simp)
      by_cases hc : d + 1 ≥ 256
      · have hd255 : d = 255 := by omega
        simp only [incGo, if_pos hc, natVal, ih (fun x hx => h x (by simp [hx]))]
        omega
      · simp only [incGo, if_neg hc, natVal]
        omega

theorem incGo_ok (ds : List Nat) (h : digitsOk ds) : digitsOk (incGo ds) := by
  induction ds with
  | nil => intro x hx; simp [incGo] at hx; omega
  | cons d t ih =>
      have hd : d < 256 := h d (by simp)
      by_cases hc : d + 1 ≥ 256
      · intro x hx
        simp only [incGo, if_pos hc] at hx
        rcases List.mem_cons.mp hx with rfl | hm
        · omega
        · exact ih (fun y hy => h y (by simp [hy])) x hm
      · intro x hx
        simp only [incGo, if_neg hc] at hx
        rcases List.mem_cons.mp hx with rfl | hm
        · omega
        · exact h x (by simp [hm])

theorem magnitude_inc_spec (x : Bigint) (hx : x.Valid) :
    natVal (magnitude_inc x).digits = natVal x.digits + 1 ∧
    (magnitude_inc x).Valid ∧
    (magnitude_inc x).negative = x.negative := by
  unfold magnitude_inc
  refine ⟨?_, normalizeBig_valid _ _ (incGo_ok x.digits hx.1), ?_⟩
  · rw [normalizeBig_digits, natVal_normalizeDigits, incGo_val x.digits hx.1]
  · rw [normalizeBig_negative_val, incGo_val x.digits hx.1, if_neg (by omega)]

theorem magnitude_dec_spec (x : Bigint) (hx : x.Valid) (hne : x.digits ≠ []) :
    natVal (magnitude_dec x).digits = natVal x.digits - 1 ∧
    (magnitude_dec x).Valid ∧
    (magnitude_dec x).negative =
      (if natVal x.digits - 1 = 0 then false else x.negative) := by
  have hpos : 1 ≤ natVal x.digits := by
    have := natVal_pos_of_normalized x.digits hx.2.1 hne
    have hp : (0 : Nat) < 256 ^ (x.digits.length - 1) := Nat.pos_pow_of_pos _ (by omega)
    omega
  rcases hds : x.digits with _ | ⟨d, t⟩
  · exact absurd hds hne
  · match d, hds with
    | 0, hds =>
        have htne : t ≠ [] := by
          intro htnil
          rw [hds, htnil] at hpos
          simp [natVal] at hpos
        have htnorm : normalizedDigits t := by
          have := hx.2.1
          rw [hds] at this
          unfold normalizedDigits at this ⊢
          rcases t with _ | ⟨e, u⟩
          · exact absurd rfl htne
          · rwa [List.getLast?_cons_cons] at this
        have htpos : 1 ≤ natVal t := by
          have := natVal_pos_of_normalized t htnorm htne
          have hp : (0 : Nat) < 256 ^ (t.length - 1) := Nat.pos_pow_of_pos _ (by omega)
          omega
        have hok : digitsOk (255 :: borrowFrom t) := by
          intro y hy
          rcases List.mem_cons.mp hy with rfl | hm
          · omega
          · exact borrowFrom_ok t (fun z hz => hx.1 z (by simp [hds, hz])) y hm
        unfold magnitude_dec
        rw [hds]
        refine ⟨?_, normalizeBig_valid _ _ hok, ?_⟩
        · rw [normalizeBig_digits, natVal_normalizeDigits]
          simp only [natVal, borrowFrom_val t htpos]
          omega
        · rw [normalizeBig_negative_val]
          simp only [natVal, borrowFrom_val t htpos]
          exact if_congr (by omega) rfl rfl
    | d + 1, hds =>
        have hok : digitsOk (d :: t) := by
          intro y hy
          rcases List.mem_cons.mp hy with heq | hm
          · have := hx.1 (d + 1) (by simp [hds])
            omega
          · exact hx.1 y (by simp [hds, hm])
        unfold magnitude_dec
        rw [hds]
        refine ⟨?_, normalizeBig_valid _ _ hok, ?_⟩
        · rw [normalizeBig_digits, natVal_normalizeDigits]
          simp only [natVal]
          omega
        · rw [normalizeBig_negative_val]
          simp only [natVal]
          exact if_congr (by omega) rfl rfl

theorem natVal_pos_of_ne_nil (ds : List Nat) (hnorm : normalizedDigits ds)
    (hne : ds ≠ []) : 1 ≤ natVal ds := by
  have := natVal_pos_of_normalized ds hnorm hne
  have hp : (0 : Nat) < 256 ^ (ds.length - 1) := Nat.pos_pow_of_pos _ (by omega)
  omega

theorem natVal_zero_iff_nil (ds : List Nat) (hnorm : normalizedDigits ds) :
    natVal ds = 0 ↔ ds = [] := by
  constructor
  · intro h
    by_contra hne
    have := natVal_pos_of_ne_nil ds hnorm hne
    omega
  · intro h
    simp [h, natVal]

/-- Claim C10: For every valid big integer x, `bigint_inc` replaces x's
value by x + 1 and `bigint_dec` replaces it by x - 1, including across
zero, and the resulting representation is valid (so the sign flag is
consistent with the result). -/
theorem C10_inc_dec (x : Bigint) (hx : x.Valid) :
    (bigint_inc x).toInt = x.toInt + 1 ∧ (bigint_inc x).Valid ∧
    (bigint_dec x).toInt = x.toInt - 1 ∧ (bigint_dec x).Valid := by
  by_cases hneg : x.negative = true
  · have hne : x.digits ≠ [] := hx.2.2 hneg
    have hv1 : 1 ≤ natVal x.digits := natVal_pos_of_ne_nil x.digits hx.2.1 hne
    have hinc : bigint_inc x = magnitude_dec x := by
      unfold bigint_inc
      rw [if_pos hneg]
    have hdec : bigint_dec x = magnitude_inc x := by
      unfold bigint_dec
      rw [if_neg (by simp [hne]), if_pos hneg]
    obtain ⟨hdv, hdval, hdneg⟩ := magnitude_dec_spec x hx hne
    obtain ⟨hiv, hival, hineg⟩ := magnitude_inc_spec x hx
    refine ⟨?_, hinc ▸ hdval, ?_, hdec ▸ hival⟩
    · rw [hinc]
      simp only [Bigint.toInt, hdneg, hdv, hneg]
      by_cases hz : natVal x.digits - 1 = 0
      · simp [hz]
        omega
      · simp [hz]
        omega
    · rw [hdec]
      simp only [Bigint.toInt, hiv, hineg, hneg]
      simp
      omega
  · have hneg2 : x.negative = false := by
      simpa using hneg
    have hinc : bigint_inc x = magnitude_inc x := by
      unfold bigint_inc
      rw [if_neg hneg]
    obtain ⟨hiv, hival, hineg⟩ := magnitude_inc_spec x hx
    by_cases hnil : x.digits = []
    · have hdec : bigint_dec x = ⟨[1], true⟩ := by
        unfold bigint_dec
        rw [if_pos (by simp [hnil])]
      refine ⟨?_, hinc ▸ hival, ?_, by rw [hdec]; decide⟩
      · rw [hinc]
        simp only [Bigint.toInt, hiv, hineg, hneg2, hnil]
        simp [natVal]
      · rw [hdec]
        simp only [Bigint.toInt, hneg2, hnil]
        simp [natVal]
    · have hv1 : 1 ≤ natVal x.digits := natVal_pos_of_ne_nil x.digits hx.2.1 hnil
      have hdec : bigint_dec x = magnitude_dec x := by
        unfold bigint_dec
        rw [if_neg (by simp [hnil]), if_neg hneg]
      obtain ⟨hdv, hdval, hdneg⟩ := magnitude_dec_spec x hx hnil
      refine ⟨?_, hinc ▸ hival, ?_, hdec ▸ hdval⟩
      · rw [hinc]
        simp only [Bigint.toInt, hiv, hineg, hneg2]
        simp
      · rw [hdec]
        simp only [Bigint.toInt, hdv, hdneg, hneg2]
        by_cases hz : natVal x.digits - 1 = 0
        · simp [hz]
          omega
        · simp [hz]
          omega

/-- Witness for C10 at a concrete input crossing zero. -/
theorem C10_inc_dec_witness :
    Bigint.Valid ⟨[1], true⟩ ∧
    ((bigint_inc ⟨[1], true⟩).toInt = (Bigint.mk [1] true).toInt + 1 ∧
      (bigint_inc ⟨[1], true⟩).Valid ∧
      (bigint_dec ⟨[1], true⟩).toInt = (Bigint.mk [1] true).toInt - 1 ∧
      (bigint_dec ⟨[1], true⟩).Valid) :=
  ⟨by decide, C10_inc_dec ⟨[1], true⟩ (by decide)⟩

/-- Claim C2: For all valid big integers a and b, `magnitude_sum` stores
the magnitude |a| + |b| in the destination; the result length is
max(|a|.len, |b|.len) plus one exactly when a carry escapes the most
significant column (that is, exactly when |a| + |b| ≥ 256^max); and the
same result is produced when the destination is the same object as a or as
b (the in-place loops equal the plain one). -/
theorem C2_magnitude_sum (neg : Bool) (a b : Bigint) (ha : a.Valid) (hb : b.Valid) :
    natVal (magnitude_sum neg a b).digits = natVal a.digits + natVal b.digits ∧
    (magnitude_sum neg a b).digits.length = max a.digits.length b.digits.length +
      (if 256 ^ max a.digits.length b.digits.length ≤ natVal a.digits + natVal b.digits
        then 1 else 0) ∧
    magnitude_sum_dest_a a b = magnitude_sum a.negative a b ∧
    magnitude_sum_dest_b a b = magnitude_sum b.negative a b :=
  ⟨magnitude_sum_val neg a b, magnitude_sum_length neg a b ha hb,
    magnitude_sum_dest_a_eq a b, magnitude_sum_dest_b_eq a b⟩

/-- Witness for C2 at a concrete input with an escaping carry. -/
theorem C2_magnitude_sum_witness :
    Bigint.Valid ⟨[255, 1], false⟩ ∧ Bigint.Valid ⟨[2], false⟩ ∧
    (natVal (magnitude_sum false ⟨[255, 1], false⟩ ⟨[2], false⟩).digits =
        natVal (Bigint.mk [255, 1] false).digits + natVal (Bigint.mk [2] false).digits ∧
      (magnitude_sum false ⟨[255, 1], false⟩ ⟨[2], false⟩).digits.length =
        max (Bigint.mk [255, 1] false).digits.length (Bigint.mk [2] false).digits.length +
        (if 256 ^ max (Bigint.mk [255, 1] false).digits.length
              (Bigint.mk [2] false).digits.length ≤
            natVal (Bigint.mk [255, 1] false).digits + natVal (Bigint.mk [2] false).digits
          then 1 else 0) ∧
      magnitude_sum_dest_a ⟨[255, 1], false⟩ ⟨[2], false⟩ =
        magnitude_sum (Bigint.mk [255, 1] false).negative ⟨[255, 1], false⟩ ⟨[2], false⟩ ∧
      magnitude_sum_dest_b ⟨[255, 1], false⟩ ⟨[2], false⟩ =
        magnitude_sum (Bigint.mk [2] false).negative ⟨[255, 1], false⟩ ⟨[2], false⟩) :=
  ⟨by decide, by decide,
    C2_magnitude_sum false ⟨[255, 1], false⟩ ⟨[2], false⟩ (by decide) (by decide)⟩

/-! ### Shift lemmas -/

theorem natVal_drop (ds : List Nat) (k : Nat) (h : digitsOk ds) :
    natVal (ds.drop k) = natVal ds / 256 ^ k := by
  induction k generalizing ds with
  | zero => simp
  | succ m ih =>
      cases ds with
      | nil => simp [natVal, Nat.zero_div]
      | cons d t =>
          have hd : d < 256 := h d (by simp)
          have ht : digitsOk t := fun x hx => h x (by simp [hx])
          show natVal (t.drop m) = natVal (d :: t) / 256 ^ (m + 1)
          rw [ih t ht]
          simp only [natVal]
          have h1 : 256 ^ (m + 1) = 256 * 256 ^ m := by rw [pow_succ]; ring
          rw [h1, ← Nat.div_div_eq_div_mul]
          have h2 : (d + 256 * natVal t) / 256 = natVal t := by
            rw [Nat.add_mul_div_left _ _ (by omega : (0:Nat) < 256), Nat.div_eq_of_lt hd]
            omega
          rw [h2]

theorem pow_off_mul (off : Nat) (h : off ≤ 8) : 2 ^ off * 2 ^ (8 - off) = 256 := by
  rw [← pow_add]
  have hsum : off + (8 - off) = 8 := by omega
  rw [hsum]
  norm_num

theorem div_add_mul_div (x y off : Nat) (hoff : off ≤ 8) :
    (x + 256 * y) / 2 ^ off = x / 2 ^ off + 2 ^ (8 - off) * y := by
  have h1 : (256 : Nat) = 2 ^ off * 2 ^ (8 - off) := (pow_off_mul off hoff).symm
  calc (x + 256 * y) / 2 ^ off = (x + 2 ^ off * (2 ^ (8 - off) * y)) / 2 ^ off := by
        rw [h1]; ring_nf
    _ = x / 2 ^ off + 2 ^ (8 - off) * y := by
        rw [Nat.add_mul_div_left _ _ (Nat.pos_pow_of_pos _ (by omega))]

theorem shrOffGo_val (off : Nat) (ds : List Nat) (h1 : 0 < off) (h8 : off < 8)
    (hok : digitsOk ds) :
    natVal (shrOffGo off ds) = natVal ds / 2 ^ off := by
  induction ds with
  | nil => simp [shrOffGo, natVal]
  | cons d t ih =>
      cases t with
      | nil =>
          show natVal [d / 2 ^ off] = natVal [d] / 2 ^ off
          simp [natVal]
      | cons e u =>
          have hd : d < 256 := hok d (by simp)
          have he : e < 256 := hok e (by simp)
          have hih := ih (fun x hx => hok x (by simp at hx; simp; tauto))
          show natVal ((d / 2 ^ off + (e % 2 ^ off) * 2 ^ (8 - off)) :: shrOffGo off (e :: u))
              = natVal (d :: e :: u) / 2 ^ off
          simp only [natVal] at hih ⊢
          rw [hih]
          rw [div_add_mul_div _ _ _ (by omega), div_add_mul_div _ _ _ (by omega)]
          have hsplit : 2 ^ (8 - off) * e =
              (e % 2 ^ off) * 2 ^ (8 - off) + 256 * (e / 2 ^ off) := by
            have hmd : 2 ^ off * (e / 2 ^ off) + e % 2 ^ off = e := Nat.div_add_mod e _
            have h256 : (256 : Nat) = 2 ^ (8 - off) * 2 ^ off := by
              rw [mul_comm]
              exact (pow_off_mul off (by omega)).symm
            calc 2 ^ (8 - off) * e
                = 2 ^ (8 - off) * (2 ^ off * (e / 2 ^ off) + e % 2 ^ off) := by rw [hmd]
              _ = (e % 2 ^ off) * 2 ^ (8 - off) + (2 ^ (8 - off) * 2 ^ off) * (e / 2 ^ off) := by
                  ring
              _ = (e % 2 ^ off) * 2 ^ (8 - off) + 256 * (e / 2 ^ off) := by rw [← h256]
          ring_nf
          ring_nf at hsplit
          linarith [hsplit]

theorem shrOffGo_ok (off : Nat) (ds : List Nat) (h1 : 0 < off) (h8 : off < 8)
    (hok : digitsOk ds) : digitsOk (shrOffGo off ds) := by
  induction ds with
  | nil => intro x hx; simp [shrOffGo] at hx
  | cons d t ih =>
      have hd : d < 256 := hok d (by simp)
      have hdb : d / 2 ^ off < 2 ^ (8 - off) := by
        apply Nat.div_lt_iff_lt_mul (Nat.pos_pow_of_pos _ (by omega)) |>.mpr
        calc d < 256 := hd
          _ = 2 ^ (8 - off) * 2 ^ off := by
              rw [mul_comm]
              exact (pow_off_mul off (by omega)).symm
      cases t with
      | nil =>
          intro x hx
          simp only [shrOffGo] at hx
          rcases List.mem_singleton.mp hx with rfl
          calc d / 2 ^ off < 2 ^ (8 - off) := hdb
            _ ≤ 2 ^ 8 := Nat.pow_le_pow_right (by omega) (by omega)
            _ ≤ 256 := by norm_num
      | cons e u =>
          intro x hx
          simp only [shrOffGo] at hx
          rcases List.mem_cons.mp hx with heq | hm
          · have hrlt : e % 2 ^ off < 2 ^ off := Nat.mod_lt _ (Nat.pos_pow_of_pos _ (by omega))
            have h256 : 2 ^ off * 2 ^ (8 - off) = 256 := pow_off_mul off (by omega)
            have hb : (e % 2 ^ off) * 2 ^ (8 - off) ≤ (2 ^ off - 1) * 2 ^ (8 - off) :=
              Nat.mul_le_mul_right _ (by omega)
            have hexp : (2 ^ off - 1) * 2 ^ (8 - off) = 2 ^ off * 2 ^ (8 - off) - 2 ^ (8 - off) := by
              rw [Nat.sub_mul, one_mul]
            have hle : 2 ^ (8 - off) ≤ 2 ^ off * 2 ^ (8 - off) :=
              Nat.le_mul_of_pos_left _ (Nat.pos_pow_of_pos _ (by omega))
            have hpos : (0:Nat) < 2 ^ (8 - off) := Nat.pos_pow_of_pos _ (by omega)
            rw [heq]
            omega
          · exact ih (fun y hy => hok y (by simp at hy; simp; tauto)) x hm

theorem bigint_shri_spec (x : Bigint) (n : Nat) (hx : x.Valid) :
    natVal (bigint_shri x n).digits = natVal x.digits / 2 ^ n ∧
    (bigint_shri x n).Valid ∧
    (bigint_shri x n).negative =
      (if natVal x.digits / 2 ^ n = 0 then false else x.negative) := by
  unfold bigint_shri
  by_cases h0 : n = 0 ∨ x.digits.isEmpty
  · rw [if_pos h0]
    have hd : normalizeDigits x.digits = x.digits := normalizeDigits_eq_self _ hx.2.1
    have hveq : natVal x.digits / 2 ^ n = natVal x.digits := by
      rcases h0 with rfl | hemp
      · simp
      · rw [List.isEmpty_iff] at hemp
        simp [hemp, natVal]
    constructor
    · show natVal (normalizeDigits x.digits) = _
      rw [natVal_normalizeDigits, hveq]
    constructor
    · have := normalizeBig_valid x.digits x.negative hx.1
      exact (by cases x; exact this)
    · have hnn : (normalizeBig x).negative =
          if natVal x.digits = 0 then false else x.negative := by
        cases x
        exact normalizeBig_negative_val _ _
      rw [hnn, hveq]
  · rw [if_neg h0]
    push_neg at h0
    obtain ⟨hn0, hne0⟩ := h0
    have hne : x.digits ≠ [] := by simpa using hne0
    have hvlt : natVal x.digits < 256 ^ x.digits.length := natVal_lt _ hx.1
    by_cases hbig : 8 * x.digits.length ≤ n
    · rw [if_pos hbig]
      have hzero : natVal x.digits / 2 ^ n = 0 := by
        apply Nat.div_eq_of_lt
        calc natVal x.digits < 256 ^ x.digits.length := hvlt
          _ = 2 ^ (8 * x.digits.length) := by
              rw [show (256 : Nat) = 2 ^ 8 by norm_num, ← pow_mul]
          _ ≤ 2 ^ n := Nat.pow_le_pow_right (by omega) hbig
      refine ⟨by simp [natVal, hzero], by decide, by simp [hzero]⟩
    · rw [if_neg hbig]
      have hokd : digitsOk (x.digits.drop (n / 8)) := by
        intro y hy
        exact hx.1 y (List.mem_of_mem_drop hy)
      by_cases hal : n % 8 = 0
      · rw [if_pos hal]
        have hval : natVal (x.digits.drop (n / 8)) = natVal x.digits / 2 ^ n := by
          rw [natVal_drop _ _ hx.1]
          congr 1
          rw [show (256 : Nat) = 2 ^ 8 by norm_num, ← pow_mul]
          congr 1
          omega
        refine ⟨?_, normalizeBig_valid _ _ hokd, ?_⟩
        · rw [normalizeBig_digits, natVal_normalizeDigits, hval]
        · rw [normalizeBig_negative_val, hval]
      · rw [if_neg hal]
        have hoff1 : 0 < n % 8 := by omega
        have hoff8 : n % 8 < 8 := Nat.mod_lt _ (by omega)
        have hval : natVal (shrOffGo (n % 8) (x.digits.drop (n / 8)))
            = natVal x.digits / 2 ^ n := by
          rw [shrOffGo_val _ _ hoff1 hoff8 hokd, natVal_drop _ _ hx.1]
          rw [show (256 : Nat) = 2 ^ 8 by norm_num, ← pow_mul, Nat.div_div_eq_div_mul,
            ← pow_add]
          congr 2
          omega
        refine ⟨?_, normalizeBig_valid _ _ (shrOffGo_ok _ _ hoff1 hoff8 hokd), ?_⟩
        · rw [normalizeBig_digits, natVal_normalizeDigits, hval]
        · rw [normalizeBig_negative_val, hval]

theorem shlOffGo_val (off : Nat) (ds : List Nat) (h1 : 0 < off) (h8 : off < 8)
    (hok : digitsOk ds) :
    ∀ prev, prev < 256 →
      natVal (shlOffGo off prev ds) = prev / 2 ^ (8 - off) + natVal ds * 2 ^ off := by
  induction ds with
  | nil =>
      intro prev hprev
      simp [shlOffGo, natVal]
  | cons d t ih =>
      intro prev hprev
      have hd : d < 256 := hok d (by simp)
      have hdd : (d * 2 ^ off) / 256 = d / 2 ^ (8 - off) := by
        calc (d * 2 ^ off) / 256 = (d * 2 ^ off) / (2 ^ off * 2 ^ (8 - off)) := by
              rw [pow_off_mul off (by omega)]
          _ = (d * 2 ^ off) / 2 ^ off / 2 ^ (8 - off) := (Nat.div_div_eq_div_mul _ _ _).symm
          _ = d / 2 ^ (8 - off) := by
              rw [Nat.mul_div_cancel _ (Nat.pos_pow_of_pos _ (by omega))]
      have hfact := Nat.mod_add_div (d * 2 ^ off) 256
      rw [hdd] at hfact
      have hih := ih (fun x hx => hok x (by simp [hx])) d hd
      calc natVal (shlOffGo off prev (d :: t))
          = (d * 2 ^ off) % 256 + prev / 2 ^ (8 - off) +
            256 * (d / 2 ^ (8 - off) + natVal t * 2 ^ off) := by
            simp only [shlOffGo, natVal, hih]
        _ = prev / 2 ^ (8 - off) +
            ((d * 2 ^ off) % 256 + 256 * (d / 2 ^ (8 - off)) + 256 * natVal t * 2 ^ off) := by
            ring
        _ = prev / 2 ^ (8 - off) + natVal (d :: t) * 2 ^ off := by
            rw [hfact]
            simp only [natVal]
            ring

theorem shlOffGo_ok (off : Nat) (ds : List Nat) (h1 : 0 < off) (h8 : off < 8)
    (hok : digitsOk ds) :
    ∀ prev, prev < 256 → digitsOk (shlOffGo off prev ds) := by
  have h256 : 2 ^ off * 2 ^ (8 - off) = 256 := pow_off_mul off (by omega)
  have hBpos : (0:Nat) < 2 ^ (8 - off) := Nat.pos_pow_of_pos _ (by omega)
  have hApos : (0:Nat) < 2 ^ off := Nat.pos_pow_of_pos _ (by omega)
  have hdivlt : ∀ p, p < 256 → p / 2 ^ (8 - off) < 2 ^ off := by
    intro p hp
    apply (Nat.div_lt_iff_lt_mul hBpos).mpr
    calc p < 256 := hp
      _ = 2 ^ off * 2 ^ (8 - off) := h256.symm
  induction ds with
  | nil =>
      intro prev hprev x hx
      simp only [shlOffGo] at hx
      rcases List.mem_singleton.mp hx with rfl
      have := hdivlt prev hprev
      have hA : 2 ^ off ≤ 2 ^ 8 := Nat.pow_le_pow_right (by omega) (by omega)
      have h28 : (2:Nat) ^ 8 = 256 := by norm_num
      omega
  | cons d t ih =>
      intro prev hprev x hx
      have hd : d < 256 := hok d (by simp)
      simp only [shlOffGo] at hx
      rcases List.mem_cons.mp hx with heq | hm
      · have hmm : (d * 2 ^ off) % 256 = (d % 2 ^ (8 - off)) * 2 ^ off := by
          conv_lhs => rw [← h256, mul_comm (2 ^ off) (2 ^ (8 - off))]
          exact Nat.mul_mod_mul_right _ _ _
        have hmlt : d % 2 ^ (8 - off) ≤ 2 ^ (8 - off) - 1 := by
          have := Nat.mod_lt d hBpos
          omega
        have hmul : (d % 2 ^ (8 - off)) * 2 ^ off ≤ (2 ^ (8 - off) - 1) * 2 ^ off :=
          Nat.mul_le_mul_right _ hmlt
        have hsub : (2 ^ (8 - off) - 1) * 2 ^ off = 2 ^ (8 - off) * 2 ^ off - 2 ^ off := by
          rw [Nat.sub_mul, one_mul]
        have h256' : 2 ^ (8 - off) * 2 ^ off = 256 := by rw [mul_comm]; exact h256
        have hdp := hdivlt prev hprev
        have hi : (d % 2 ^ (8 - off)) * 2 ^ off ≤ 256 - 2 ^ off := by
          calc (d % 2 ^ (8 - off)) * 2 ^ off ≤ (2 ^ (8 - off) - 1) * 2 ^ off := hmul
            _ = 2 ^ (8 - off) * 2 ^ off - 2 ^ off := hsub
            _ = 256 - 2 ^ off := by rw [h256']
        have hA256 : 2 ^ off ≤ 256 := by
          calc (2:Nat) ^ off ≤ 2 ^ 8 := Nat.pow_le_pow_right (by omega) (by omega)
            _ = 256 := by norm_num
        rw [heq, hmm]
        omega
      · exact ih (fun y hy => hok y (by simp [hy])) d hd x hm

theorem bigint_shli_spec (x : Bigint) (n : Nat) (hx : x.Valid) :
    natVal (bigint_shli x n).digits = natVal x.digits * 2 ^ n ∧
    (bigint_shli x n).Valid ∧
    (bigint_shli x n).negative =
      (if natVal x.digits = 0 then false else x.negative) := by
  unfold bigint_shli
  by_cases h0 : n = 0 ∨ x.digits.isEmpty
  · rw [if_pos h0]
    have hd : normalizeDigits x.digits = x.digits := normalizeDigits_eq_self _ hx.2.1
    have hveq : natVal x.digits * 2 ^ n = natVal x.digits := by
      rcases h0 with rfl | hemp
      · simp
      · rw [List.isEmpty_iff] at hemp
        simp [hemp, natVal]
    refine ⟨?_, ?_, ?_⟩
    · show natVal (normalizeDigits x.digits) = _
      rw [natVal_normalizeDigits, hveq]
    · have := normalizeBig_valid x.digits x.negative hx.1
      exact (by cases x; exact this)
    · have hnn : (normalizeBig x).negative =
          if natVal x.digits = 0 then false else x.negative := by
        cases x
        exact normalizeBig_negative_val _ _
      rw [hnn]
  · rw [if_neg h0]
    push_neg at h0
    obtain ⟨hn0, hne0⟩ := h0
    have hne : x.digits ≠ [] := by simpa using hne0
    have hvpos : 1 ≤ natVal x.digits := natVal_pos_of_ne_nil x.digits hx.2.1 hne
    by_cases hal : n % 8 = 0
    · rw [if_pos hal]
      have hokl : digitsOk (List.replicate (n / 8) 0 ++ x.digits) := by
        intro y hy
        rcases List.mem_append.mp hy with hm | hm
        · have := List.eq_of_mem_replicate hm
          omega
        · exact hx.1 y hm
      have hval : natVal (List.replicate (n / 8) 0 ++ x.digits) = natVal x.digits * 2 ^ n := by
        rw [natVal_append, natVal_replicate_zero, List.length_replicate]
        rw [show (256 : Nat) = 2 ^ 8 by norm_num, ← pow_mul]
        have : 8 * (n / 8) = n := by omega
        rw [this]
        ring
      refine ⟨?_, normalizeBig_valid _ _ hokl, ?_⟩
      · rw [normalizeBig_digits, natVal_normalizeDigits, hval]
      · rw [normalizeBig_negative_val, hval]
        have hne2 : ¬ (natVal x.digits * 2 ^ n = 0) := by
          have := Nat.pos_pow_of_pos n (show 0 < 2 by omega)
          positivity
        rw [if_neg hne2, if_neg (by omega)]
    · rw [if_neg hal]
      have hoff1 : 0 < n % 8 := by omega
      have hoff8 : n % 8 < 8 := Nat.mod_lt _ (by omega)
      have hokshl : digitsOk (shlOffGo (n % 8) 0 x.digits) :=
        shlOffGo_ok _ _ hoff1 hoff8 hx.1 0 (by omega)
      have hokl : digitsOk (List.replicate (n / 8) 0 ++ shlOffGo (n % 8) 0 x.digits) := by
        intro y hy
        rcases List.mem_append.mp hy with hm | hm
        · have := List.eq_of_mem_replicate hm
          omega
        · exact hokshl y hm
      have hval : natVal (List.replicate (n / 8) 0 ++ shlOffGo (n % 8) 0 x.digits)
          = natVal x.digits * 2 ^ n := by
        rw [natVal_append, natVal_replicate_zero, List.length_replicate,
          shlOffGo_val _ _ hoff1 hoff8 hx.1 0 (by omega)]
        rw [Nat.zero_div, show (256 : Nat) = 2 ^ 8 by norm_num, ← pow_mul]
        simp only [Nat.zero_add]
        rw [← mul_assoc, mul_comm (2 ^ (8 * (n / 8))) (natVal x.digits), mul_assoc, ← pow_add]
        congr 2
        omega
      refine ⟨?_, normalizeBig_valid _ _ hokl, ?_⟩
      · rw [normalizeBig_digits, natVal_normalizeDigits, hval]
      · rw [normalizeBig_negative_val, hval]
        have hne2 : ¬ (natVal x.digits * 2 ^ n = 0) := by
          have := Nat.pos_pow_of_pos n (show 0 < 2 by omega)
          positivity
        rw [if_neg hne2, if_neg (by omega)]

/-! ### Power-of-two and trailing-zero lemmas -/

theorem pow2_digit : ∀ d, d < 256 → d ≠ 0 → POWER_OF_2 d = true → d = 2 ^ ctzDigit 8 d := by
  decide

theorem isPow2_val (ds : List Nat) (hok : digitsOk ds) (hnorm : normalizedDigits ds)
    (hp : isPow2List ds = true) : natVal ds = 2 ^ ctzList ds := by
  induction ds with
  | nil => simp [isPow2List] at hp
  | cons d t ih =>
      cases t with
      | nil =>
          have hd : d < 256 := hok d (by simp)
          have hdne : d ≠ 0 := by
            unfold normalizedDigits at hnorm
            simpa using hnorm
          have hpd : POWER_OF_2 d = true := by
            simpa [isPow2List] using hp
          have heq := pow2_digit d hd hdne hpd
          simp only [natVal, ctzList, if_neg hdne]
          omega
      | cons e u =>
          have hd0 : d = 0 := by
            simp [isPow2List, List.dropLast] at hp
            exact hp.1.1
          have hpt : isPow2List (e :: u) = true := by
            simp [isPow2List, List.dropLast] at hp ⊢
            exact ⟨hp.1.2, hp.2⟩
          have hnt : normalizedDigits (e :: u) := by
            unfold normalizedDigits at hnorm ⊢
            rwa [List.getLast?_cons_cons] at hnorm
          have hvt := ih (fun x hx => hok x (by simp [hx])) hnt hpt
          subst hd0
          have hctz : ctzList (0 :: e :: u) = 8 + ctzList (e :: u) := by
            simp [ctzList]
          have hnv : natVal (0 :: e :: u) = 256 * natVal (e :: u) := by
            simp [natVal]
          rw [hnv, hvt, hctz, pow_add]
          norm_num

/-! ### Magnitude comparison lemmas -/

theorem msbVal_eq_natVal_reverse (l : List Nat) : msbVal l = natVal l.reverse := by
  rw [natVal_eq_msbVal_reverse, List.reverse_reverse]

theorem msbVal_cons_split (a : Nat) (as : List Nat) :
    msbVal (a :: as) = msbVal as + 256 ^ as.length * a := by
  rw [msbVal_eq_natVal_reverse, msbVal_eq_natVal_reverse, List.reverse_cons,
    natVal_append]
  simp [natVal]

theorem msbVal_lt (l : List Nat) (h : digitsOk l) : msbVal l < 256 ^ l.length := by
  rw [msbVal_eq_natVal_reverse]
  have := natVal_lt l.reverse (fun x hx => h x (List.mem_reverse.mp hx))
  simpa using this

theorem cmpRev_eq (l1 : List Nat) : ∀ l2 : List Nat, l1.length = l2.length →
    digitsOk l1 → digitsOk l2 →
    cmpRev l1 l2 =
      if msbVal l1 < msbVal l2 then -1 else if msbVal l2 < msbVal l1 then 1 else 0 := by
  induction l1 with
  | nil =>
      intro l2 hlen h1 h2
      have : l2 = [] := List.length_eq_zero.mp hlen.symm
      subst this
      simp [cmpRev]
  | cons a as ih =>
      intro l2 hlen h1 h2
      cases l2 with
      | nil => simp at hlen
      | cons b bs =>
          have hlen2 : as.length = bs.length := by simpa using hlen
          have ha : a < 256 := h1 a (by simp)
          have hb : b < 256 := h2 b (by simp)
          have hma : msbVal as < 256 ^ as.length :=
            msbVal_lt as (fun x hx => h1 x (by simp [hx]))
          have hmb : msbVal bs < 256 ^ bs.length :=
            msbVal_lt bs (fun x hx => h2 x (by simp [hx]))
          have hsa := msbVal_cons_split a as
          have hsb := msbVal_cons_split b bs
          rcases Nat.lt_trichotomy a b with hab | hab | hab
          · have hlt : msbVal (a :: as) < msbVal (b :: bs) := by
              rw [hsa, hsb, ← hlen2]
              calc msbVal as + 256 ^ as.length * a
                  < 256 ^ as.length + 256 ^ as.length * a := Nat.add_lt_add_right hma _
                _ = 256 ^ as.length * (a + 1) := by ring
                _ ≤ 256 ^ as.length * b := Nat.mul_le_mul_left _ (by omega)
                _ ≤ msbVal bs + 256 ^ as.length * b := Nat.le_add_left _ _
            show (if a > b then (1:Int) else if a < b then -1 else cmpRev as bs) = _
            rw [if_neg (by omega), if_pos hab, if_pos hlt]
          · subst hab
            have hcond1 : (msbVal (a :: as) < msbVal (a :: bs)) ↔ (msbVal as < msbVal bs) := by
              rw [hsa, hsb, ← hlen2]
              exact Nat.add_lt_add_iff_right
            have hcond2 : (msbVal (a :: bs) < msbVal (a :: as)) ↔ (msbVal bs < msbVal as) := by
              rw [hsa, hsb, ← hlen2]
              exact Nat.add_lt_add_iff_right
            show (if a > a then (1:Int) else if a < a then -1 else cmpRev as bs) = _
            rw [if_neg (by omega), if_neg (by omega),
              ih bs hlen2 (fun x hx => h1 x (by simp [hx])) (fun x hx => h2 x (by simp [hx]))]
            exact (if_congr hcond1 rfl (if_congr hcond2 rfl rfl)).symm
          · have hmb2 : msbVal bs < 256 ^ as.length := by
              rw [hlen2]
              exact hmb
            have hlt : msbVal (b :: bs) < msbVal (a :: as) := by
              rw [hsa, hsb, ← hlen2]
              calc msbVal bs + 256 ^ as.length * b
                  < 256 ^ as.length + 256 ^ as.length * b := Nat.add_lt_add_right hmb2 _
                _ = 256 ^ as.length * (b + 1) := by ring
                _ ≤ 256 ^ as.length * a := Nat.mul_le_mul_left _ (by omega)
                _ ≤ msbVal as + 256 ^ as.length * a := Nat.le_add_left _ _
            show (if a > b then (1:Int) else if a < b then -1 else cmpRev as bs) = _
            rw [if_pos hab, if_neg (by omega), if_pos hlt]

theorem cmpList_eq (a b : List Nat) (ha : digitsOk a) (hna : normalizedDigits a)
    (hb : digitsOk b) (hnb : normalizedDigits b) :
    cmpList a b =
      if natVal a < natVal b then -1 else if natVal b < natVal a then 1 else 0 := by
  unfold cmpList
  by_cases hc : a.length ≠ 0 ∧ a.length = b.length
  · rw [if_pos hc]
    have h1 : digitsOk a.reverse := fun x hx => ha x (List.mem_reverse.mp hx)
    have h2 : digitsOk b.reverse := fun x hx => hb x (List.mem_reverse.mp hx)
    rw [cmpRev_eq a.reverse b.reverse (by simpa using hc.2) h1 h2]
    rw [msbVal_eq_natVal_reverse, msbVal_eq_natVal_reverse, List.reverse_reverse,
      List.reverse_reverse]
  · rw [if_neg hc]
    push_neg at hc
    rcases Nat.lt_trichotomy a.length b.length with hlt | heq | hgt
    · rw [if_neg (by omega), if_pos hlt]
      have hbne : b ≠ [] := by
        intro hnil
        rw [hnil] at hlt
        simp at hlt
      have hblow := natVal_pos_of_normalized b hnb hbne
      have halt := natVal_lt a ha
      have hle : 256 ^ a.length ≤ 256 ^ (b.length - 1) :=
        Nat.pow_le_pow_right (by omega) (by omega)
      have hv : natVal a < natVal b := by omega
      rw [if_pos hv]
    · by_cases haz : a.length = 0
      · have haz2 : a = [] := List.length_eq_zero.mp haz
        have hbz : b = [] := List.length_eq_zero.mp (by omega)
        subst haz2
        subst hbz
        simp [natVal]
      · exact absurd heq (hc haz)
    · rw [if_pos hgt]
      have hane : a ≠ [] := by
        intro hnil
        rw [hnil] at hgt
        simp at hgt
      have halow := natVal_pos_of_normalized a hna hane
      have hblt := natVal_lt b hb
      have hle : 256 ^ b.length ≤ 256 ^ (a.length - 1) :=
        Nat.pow_le_pow_right (by omega) (by omega)
      have hv : natVal b < natVal a := by omega
      rw [if_neg (by omega), if_pos hv]

/-! ### Schoolbook multiplication lemmas -/

theorem natVal_headD_tail (bs : List Nat) :
    natVal bs = bs.headD 0 + 256 * natVal bs.tail := by
  cases bs <;> simp [natVal]

theorem headD_lt (bs : List Nat) (h : digitsOk bs) : bs.headD 0 < 256 := by
  cases bs with
  | nil => simp
  | cons b t => exact h b (by simp)

theorem fmaRowGo_spec (ai : Nat) (hai : ai < 256) :
    ∀ steps c buf bs, c < 256 → digitsOk buf → digitsOk bs →
      bs.length ≤ steps → steps < buf.length → buf.getD steps 0 = 0 →
      natVal (fmaRowGo ai steps c buf bs) = natVal buf + c + ai * natVal bs ∧
      digitsOk (fmaRowGo ai steps c buf bs) ∧
      (fmaRowGo ai steps c buf bs).length = buf.length ∧
      (∀ k, steps < k → (fmaRowGo ai steps c buf bs).getD k 0 = buf.getD k 0) := by
  intro steps
  induction steps with
  | zero =>
      intro c buf bs hc hbuf hbs hlb hsb hz
      have hbsnil : bs = [] := List.length_eq_zero.mp (by omega)
      subst hbsnil
      cases buf with
      | nil => simp at hsb
      | cons u rest =>
          have hu : u = 0 := by simpa using hz
          subst hu
          by_cases hc0 : c = 0
          · subst hc0
            simp only [fmaRowGo, if_pos rfl]
            refine ⟨by simp [natVal], hbuf, rfl, fun k hk => rfl⟩
          · simp only [fmaRowGo, if_neg hc0]
            refine ⟨by simp [natVal]; omega, ?_, by simp, ?_⟩
            · intro x hx
              rcases List.mem_cons.mp hx with heq | hm
              · omega
              · exact hbuf x (by simp [hm])
            · intro k hk
              match k, hk with
              | j + 1, _ => simp
  | succ steps ih =>
      intro c buf bs hc hbuf hbs hlb hsb hz
      cases buf with
      | nil => simp at hsb
      | cons u rest =>
          have hu : u < 256 := hbuf u (by simp)
          have hb0 : bs.headD 0 < 256 := headD_lt bs hbs
          have htle : u + c + ai * bs.headD 0 < 65536 := by
            have hm : ai * bs.headD 0 ≤ 255 * 255 := Nat.mul_le_mul (by omega) (by omega)
            omega
          have hcarry : (u + c + ai * bs.headD 0) / 256 < 256 := by
            apply (Nat.div_lt_iff_lt_mul (by omega : (0:Nat) < 256)).mpr
            omega
          have hrest : digitsOk rest := fun x hx => hbuf x (by simp [hx])
          have hbst : digitsOk bs.tail := by
            intro x hx
            cases bs with
            | nil => simp at hx
            | cons b t => exact hbs x (by simp at hx; simp [hx])
          have hlb2 : bs.tail.length ≤ steps := by
            cases bs with
            | nil => simp
            | cons b t =>
                simp at hlb ⊢
                omega
          have hsb2 : steps < rest.length := by simpa using hsb
          have hz2 : rest.getD steps 0 = 0 := by simpa using hz
          obtain ⟨ihv, ihok, ihlen, ihhigh⟩ :=
            ih ((u + c + ai * bs.headD 0) / 256) rest bs.tail hcarry hrest hbst hlb2 hsb2 hz2
          have hmd := Nat.mod_add_div (u + c + ai * bs.headD 0) 256
          refine ⟨?_, ?_, ?_, ?_⟩
          · simp only [fmaRowGo, List.headD_cons, List.tail_cons, natVal, ihv]
            calc (u + c + ai * bs.headD 0) % 256 +
                  256 * (natVal rest + (u + c + ai * bs.headD 0) / 256 + ai * natVal bs.tail)
                = ((u + c + ai * bs.headD 0) % 256 + 256 * ((u + c + ai * bs.headD 0) / 256)) +
                  256 * natVal rest + 256 * (ai * natVal bs.tail) := by ring
              _ = (u + c + ai * bs.headD 0) + 256 * natVal rest + 256 * (ai * natVal bs.tail) := by
                  rw [hmd]
              _ = (u + 256 * natVal rest) + c + ai * (bs.headD 0 + 256 * natVal bs.tail) := by
                  ring
              _ = natVal (u :: rest) + c + ai * natVal bs := by
                  rw [← natVal_headD_tail]
                  simp [natVal]
          · intro x hx
            simp only [fmaRowGo, List.headD_cons, List.tail_cons] at hx
            rcases List.mem_cons.mp hx with heq | hm
            · have := Nat.mod_lt (u + c + ai * bs.headD 0) (show (0:Nat) < 256 by omega)
              omega
            · exact ihok x hm
          · simp only [fmaRowGo, List.headD_cons, List.tail_cons, List.length_cons, ihlen]
          · intro k hk
            cases k with
            | zero => omega
            | succ j =>
                simp only [fmaRowGo, List.headD_cons, List.tail_cons, List.getD_cons_succ]
                exact ihhigh j (by omega)

theorem natVal_take_cons (as : List Nat) (rows : Nat) :
    natVal (as.take (rows + 1)) = as.headD 0 + 256 * natVal (as.tail.take rows) := by
  cases as <;> simp [natVal]

theorem mulRowsGo_spec (steps : Nat) (bs : List Nat) (hbs : digitsOk bs)
    (hlb : bs.length ≤ steps) :
    ∀ rows buf as, digitsOk buf → digitsOk as →
      steps + rows ≤ buf.length →
      (∀ k, steps ≤ k → buf.getD k 0 = 0) →
      natVal (mulRowsGo steps bs rows buf as) =
        natVal buf + natVal (as.take rows) * natVal bs ∧
      digitsOk (mulRowsGo steps bs rows buf as) := by
  intro rows
  induction rows with
  | zero =>
      intro buf as hbuf has hlen hzero
      simp only [mulRowsGo, List.take_zero, natVal]
      exact ⟨by ring_nf, hbuf⟩
  | succ rows ih =>
      intro buf as hbuf has hlen hzero
      have hai : as.headD 0 < 256 := headD_lt as has
      have hsb : steps < buf.length := by omega
      have hz : buf.getD steps 0 = 0 := hzero steps (le_refl _)
      obtain ⟨hv, hok, hlenr, hhigh⟩ :=
        fmaRowGo_spec (as.headD 0) hai steps 0 buf bs (by omega) hbuf hbs hlb hsb hz
      rcases hfr : fmaRowGo (as.headD 0) steps 0 buf bs with _ | ⟨u, rest⟩
      · exfalso
        rw [hfr] at hlenr
        simp at hlenr
        omega
      · have hred : mulRowsGo steps bs (rows + 1) buf as =
            u :: mulRowsGo steps bs rows rest as.tail := by
          simp only [mulRowsGo, hfr]
        rw [hfr] at hv hok hlenr hhigh
        have hrestok : digitsOk rest := fun x hx => hok x (by simp [hx])
        have hastail : digitsOk as.tail := by
          intro x hx
          cases as with
          | nil => simp at hx
          | cons a t =>
              simp at hx
              exact has x (by simp [hx])
        have hlen2 : steps + rows ≤ rest.length := by
          simp at hlenr
          omega
        have hzero2 : ∀ k, steps ≤ k → rest.getD k 0 = 0 := by
          intro k hk
          have h1 : (u :: rest).getD (k + 1) 0 = buf.getD (k + 1) 0 := hhigh (k + 1) (by omega)
          have h2 : buf.getD (k + 1) 0 = 0 := hzero (k + 1) (by omega)
          have h3 := h1.trans h2
          rw [List.getD_cons_succ] at h3
          exact h3
        obtain ⟨ihv, ihok⟩ := ih rest as.tail hrestok hastail hlen2 hzero2
        rw [hred]
        constructor
        · simp only [natVal, ihv]
          have hvbuf : u + 256 * natVal rest = natVal buf + as.headD 0 * natVal bs := by
            have h3 : natVal (u :: rest) = natVal buf + 0 + as.headD 0 * natVal bs := hv
            simp only [natVal, Nat.add_zero] at h3
            exact h3
          calc u + 256 * (natVal rest + natVal (as.tail.take rows) * natVal bs)
              = (u + 256 * natVal rest) + 256 * (natVal (as.tail.take rows) * natVal bs) := by
                ring
            _ = natVal buf + as.headD 0 * natVal bs +
                256 * (natVal (as.tail.take rows) * natVal bs) := by rw [hvbuf]
            _ = natVal buf + (as.headD 0 + 256 * natVal (as.tail.take rows)) * natVal bs := by
                ring
            _ = natVal buf + natVal (as.take (rows + 1)) * natVal bs := by
                rw [← natVal_take_cons]
        · intro x hx
          rcases List.mem_cons.mp hx with heq | hm
          · have hu : u < 256 := hok u (by simp)
            omega
          · exact ihok x hm

theorem getD_replicate_zero (n k : Nat) : (List.replicate n 0).getD k 0 = 0 := by
  induction n generalizing k with
  | zero => simp
  | succ m ih =>
      cases k with
      | zero => simp [List.replicate]
      | succ j =>
          rw [List.replicate, List.getD_cons_succ]
          exact ih j

theorem schoolbook_spec (as bs : List Nat) (ha : digitsOk as) (hb : digitsOk bs) :
    natVal (schoolbook as bs) = natVal as * natVal bs ∧ digitsOk (schoolbook as bs) := by
  unfold schoolbook
  have hrep : digitsOk (List.replicate (as.length + bs.length + max as.length bs.length) 0) := by
    intro x hx
    have := List.eq_of_mem_replicate hx
    omega
  obtain ⟨hv, hok⟩ := mulRowsGo_spec (max as.length bs.length) bs hb (by omega)
    (max as.length bs.length)
    (List.replicate (as.length + bs.length + max as.length bs.length) 0) as hrep ha
    (by simp; try omega)
    (fun k _ => getD_replicate_zero _ k)
  refine ⟨?_, hok⟩
  rw [hv, natVal_replicate_zero, List.take_of_length_le (by omega)]
  omega

-- Sanity checks on the embedding.
example : natVal [232, 3] = 1000 := by decide
example : sumList [255, 1] [1] = [0, 2] := by decide
example : deltaList [0, 2] [1] = [255, 1] := by decide
example : cmpList [232, 3] [3] = 1 := by decide
example : bigint_inc ⟨[1], true⟩ = ⟨[], false⟩ := by decide
example : bigint_dec ⟨[], false⟩ = ⟨[1], true⟩ := by decide
example : isPow2List [0, 4] = true := by decide
example : isPow2List [3] = false := by decide
example : ctzList [0, 4] = 10 := by decide
example : bigint_shli ⟨[232, 3], false⟩ 3 = ⟨[64, 31], false⟩ := by decide
example : bigint_shri ⟨[64, 31], true⟩ 3 = ⟨[232, 3], true⟩ := by decide
example : bigint_shri ⟨[7], true⟩ 1 = ⟨[3], true⟩ := by decide
example : bigint_shri ⟨[0, 1], false⟩ 4 = ⟨[16], false⟩ := by decide
example : bigint_mul ⟨[255], false⟩ ⟨[255], true⟩ = ⟨[1, 254], true⟩ := by decide
example : bigint_mul ⟨[232, 3], true⟩ ⟨[10], true⟩ = ⟨[16, 39], false⟩ := by decide
example : bigint_mul ⟨[0, 4], false⟩ ⟨[5], false⟩ = ⟨[0, 20], false⟩ := by decide
example : bigint_pow ⟨[2], true⟩ ⟨[10], false⟩ = some ⟨[0, 4], false⟩ := by decide
example : bigint_pow ⟨[2], true⟩ ⟨[11], false⟩ = some ⟨[0, 8], true⟩ := by decide
example : bigint_pow ⟨[2], false⟩ ⟨[1], true⟩ = none := by decide
example : bigint_div ⟨[232, 3], false⟩ ⟨[3], false⟩ =
    some (⟨[77, 1], false⟩, ⟨[1], false⟩) := by decide
example : bigint_div ⟨[105], false⟩ ⟨[10], false⟩ =
    some (⟨[10], false⟩, ⟨[5], false⟩) := by decide
example : bigint_div ⟨[7], true⟩ ⟨[2], false⟩ =
    some (⟨[3], true⟩, ⟨[], false⟩) := by decide
example : bigint_div ⟨[10], false⟩ ⟨[10], false⟩ =
    some (⟨[1], false⟩, ⟨[], false⟩) := by decide
example : bigint_div ⟨[123], false⟩ ⟨[], false⟩ = none := by decide
example : bigint_snprint10 ⟨[210], false⟩ = ['2', '1', '0'] := by decide
example : bigint_snprint10 ⟨[105], false⟩ = ['1', '5', '5'] := by decide
example : bigint_snprint10 ⟨[], false⟩ = ['0'] := by decide
example : bigint_snprint10 ⟨[7], true⟩ = ['-', '7'] := by decide
example : bigint_strtobi ['1', '5', '5'] = some ⟨[155], false⟩ := by decide
example : bigint_strtobi ['-', '2', '5', '6'] = some ⟨[0, 1], true⟩ := by decide
example : bigint_strtobi ['0', 'x', 'f', 'f'] = some ⟨[255], false⟩ := by decide
example : bigint_strtobi ['0', '7', '7'] = some ⟨[63], false⟩ := by decide
example : bigint_strtobi ['0', 'b', '1', '0', '1'] = some ⟨[5], false⟩ := by decide
example : bigint_strtobi ['1', 'e', '3'] = some ⟨[232, 3], false⟩ := by decide
example : bigint_strtobif ['3', '.', '1', '4', 'e', '2'] =
    some (⟨[58, 1], false⟩, some 4) := by decide
example : bigint_strtobif ['3', '.', '1', '4', '1', 'e', '2'] =
    some (⟨[58, 1], false⟩, none) := by decide
example : bigint_strtobif ['3', '.', '1', '4', '1', '5', 'e', '2'] =
    some (⟨[58, 1], false⟩, some 4) := by decide
example : bigint_strtobi ['2', 'e'] = none := by decide
example : bigint_strtobi ['5', 'q'] = none := by decide
example : bigint_div_alias_qd ⟨[232, 3], false⟩ ⟨[3], false⟩ = ⟨[255], false⟩ := by decide
example : magnitude_sum_dest_a ⟨[255, 1], true⟩ ⟨[1], false⟩ = ⟨[0, 2], true⟩ := by decide
example : magnitude_sum_dest_b ⟨[255, 1], false⟩ ⟨[1], true⟩ = ⟨[0, 2], true⟩ := by decide
example : magnitude_sum true ⟨[255, 1], false⟩ ⟨[1], false⟩ = ⟨[0, 2], true⟩ := by decide

/-! ### Multiplication -/

theorem bigint_mul_spec (a b : Bigint) (ha : a.Valid) (hb : b.Valid) :
    natVal (bigint_mul a b).digits = natVal a.digits * natVal b.digits ∧
    (bigint_mul a b).Valid ∧
    (bigint_mul a b).negative =
      (if natVal a.digits * natVal b.digits = 0 then false
       else a.negative != b.negative) := by
  unfold bigint_mul
  by_cases hz : a.digits.isEmpty ∨ b.digits.isEmpty
  · rw [if_pos hz]
    have hv : natVal a.digits * natVal b.digits = 0 := by
      rcases hz with h | h <;> rw [List.isEmpty_iff] at h <;> simp [h, natVal]
    refine ⟨by simp [natVal, hv], ?_, by simp [hv]⟩
    exact ⟨by intro d hd; simp at hd, by simp [normalizedDigits], by simp⟩
  · rw [if_neg hz]
    push_neg at hz
    obtain ⟨hae, hbe⟩ := hz
    have hane : a.digits ≠ [] := by simpa using hae
    have hbne : b.digits ≠ [] := by simpa using hbe
    have hapos : 1 ≤ natVal a.digits := natVal_pos_of_ne_nil _ ha.2.1 hane
    have hbpos : 1 ≤ natVal b.digits := natVal_pos_of_ne_nil _ hb.2.1 hbne
    have hprodne : natVal a.digits * natVal b.digits ≠ 0 := by positivity
    by_cases hpa : 1 < a.digits.length ∧ isPow2List a.digits
    · rw [if_pos hpa]
      have h2 : natVal a.digits = 2 ^ ctzList a.digits := isPow2_val _ ha.1 ha.2.1 hpa.2
      obtain ⟨hval, hvalid, _⟩ := bigint_shli_spec b (ctzList a.digits) hb
      refine ⟨?_, normalizeBig_valid _ _ hvalid.1, ?_⟩
      · rw [normalizeBig_digits, natVal_normalizeDigits, hval, h2]
        ring
      · rw [normalizeBig_negative_val, hval, h2, Nat.mul_comm (natVal b.digits)]
    · rw [if_neg hpa]
      by_cases hpb : 1 < b.digits.length ∧ isPow2List b.digits
      · rw [if_pos hpb]
        have h2 : natVal b.digits = 2 ^ ctzList b.digits := isPow2_val _ hb.1 hb.2.1 hpb.2
        obtain ⟨hval, hvalid, _⟩ := bigint_shli_spec a (ctzList b.digits) ha
        refine ⟨?_, normalizeBig_valid _ _ hvalid.1, ?_⟩
        · rw [normalizeBig_digits, natVal_normalizeDigits, hval, h2]
        · rw [normalizeBig_negative_val, hval, h2]
      · rw [if_neg hpb]
        obtain ⟨hsv, hsok⟩ := schoolbook_spec a.digits b.digits ha.1 hb.1
        refine ⟨?_, normalizeBig_valid _ _ hsok, ?_⟩
        · rw [normalizeBig_digits, natVal_normalizeDigits, hsv]
        · rw [normalizeBig_negative_val, hsv, if_neg hprodne]

theorem natVal_mod_two (ds : List Nat) : natVal ds % 2 = ds.headD 0 % 2 := by
  cases ds with
  | nil => rfl
  | cons d t =>
      simp only [natVal, List.headD_cons]
      omega

theorem powLoopF_spec : ∀ fuel (dest base e : Bigint), dest.Valid → base.Valid → e.Valid →
    e.digits ≠ [] → natVal e.digits < 2 ^ fuel →
    natVal (powLoopF fuel dest base e).digits
      = natVal dest.digits * natVal base.digits ^ natVal e.digits ∧
    (powLoopF fuel dest base e).Valid := by
  intro fuel
  induction fuel with
  | zero =>
      intro dest base e _ _ he hne hlt
      have := natVal_pos_of_ne_nil e.digits he.2.1 hne
      norm_num at hlt
      omega
  | succ fuel ih =>
      intro dest base e hd hb he hne hlt
      have hpos := natVal_pos_of_ne_nil e.digits he.2.1 hne
      have hpar : natVal e.digits % 2 = e.digits.headD 0 % 2 := natVal_mod_two e.digits
      obtain ⟨hsv, hsvalid, _⟩ := bigint_shri_spec e 1 he
      have hsv1 : natVal (bigint_shri e 1).digits = natVal e.digits / 2 := by
        rw [hsv]
        norm_num
      simp only [powLoopF]
      by_cases hemp : (bigint_shri e 1).digits.isEmpty = true
      · rw [if_pos hemp]
        rw [List.isEmpty_iff] at hemp
        have hz : natVal (bigint_shri e 1).digits = 0 := by
          rw [hemp]
          rfl
        have he1 : natVal e.digits = 1 := by
          rw [hsv1] at hz
          omega
        have hodd : e.digits.headD 0 % 2 = 1 := by
          rw [← hpar, he1]
        rw [if_pos hodd, he1, pow_one]
        obtain ⟨hmv, hmvalid, _⟩ := bigint_mul_spec dest base hd hb
        exact ⟨hmv, hmvalid⟩
      · rw [if_neg hemp]
        have hne1 : (bigint_shri e 1).digits ≠ [] := by
          intro hnil
          exact hemp (List.isEmpty_iff.mpr hnil)
        have hpos1 := natVal_pos_of_ne_nil _ hsvalid.2.1 hne1
        have hlt1 : natVal (bigint_shri e 1).digits < 2 ^ fuel := by
          rw [hsv1]
          rw [pow_succ] at hlt
          omega
        obtain ⟨hbv, hbvalid, _⟩ := bigint_mul_spec base base hb hb
        by_cases hhd : e.digits.headD 0 % 2 = 1
        · rw [if_pos hhd]
          obtain ⟨hmv, hmvalid, _⟩ := bigint_mul_spec dest base hd hb
          obtain ⟨hiv, hivalid⟩ := ih (bigint_mul dest base) (bigint_mul base base)
            (bigint_shri e 1) hmvalid hbvalid hsvalid hne1 hlt1
          refine ⟨?_, hivalid⟩
          rw [hiv, hmv, hbv, hsv1]
          have hsq : natVal base.digits * natVal base.digits = natVal base.digits ^ 2 := by
            ring
          rw [hsq, ← pow_mul]
          have hn : 2 * (natVal e.digits / 2) + 1 = natVal e.digits := by omega
          calc natVal dest.digits * natVal base.digits
                * natVal base.digits ^ (2 * (natVal e.digits / 2))
              = natVal dest.digits
                * (natVal base.digits ^ (2 * (natVal e.digits / 2)) * natVal base.digits) := by
                ring
            _ = natVal dest.digits * natVal base.digits ^ (2 * (natVal e.digits / 2) + 1) := by
                rw [pow_succ]
            _ = natVal dest.digits * natVal base.digits ^ natVal e.digits := by rw [hn]
        · rw [if_neg hhd]
          obtain ⟨hiv, hivalid⟩ := ih dest (bigint_mul base base)
            (bigint_shri e 1) hd hbvalid hsvalid hne1 hlt1
          refine ⟨?_, hivalid⟩
          rw [hiv, hbv, hsv1]
          have hsq : natVal base.digits * natVal base.digits = natVal base.digits ^ 2 := by
            ring
          rw [hsq, ← pow_mul]
          have hn : 2 * (natVal e.digits / 2) = natVal e.digits := by omega
          rw [hn]

/-- Claim C6: `bigint_pow(dest, B, E)` fails with a domain error when the
exponent is negative; when E = 0 the result is 1; when B = 0 and E > 0 the
result is 0; otherwise the result's magnitude is |B| raised to E and the
result is negative exactly when B is negative and E is odd.  The E = 0 and
B = 0 clauses are instances of the general magnitude equation
`|p| = |B| ^ E`, which is proved here for every valid B and non-negative
valid E together with the sign clause. -/
theorem C6_pow (B E : Bigint) (hB : B.Valid) (hE : E.Valid) :
    (E.negative = true → bigint_pow B E = none) ∧
    (E.negative = false → ∃ p, bigint_pow B E = some p ∧ p.Valid ∧
      natVal p.digits = natVal B.digits ^ natVal E.digits ∧
      p.negative = (B.negative && decide (natVal E.digits % 2 = 1))) := by
  constructor
  · intro hneg
    simp only [bigint_pow]
    rw [if_pos hneg]
  · intro hneg
    simp only [bigint_pow]
    rw [if_neg (by simp [hneg])]
    by_cases hEe : E.digits.isEmpty = true
    · rw [if_pos hEe]
      rw [List.isEmpty_iff] at hEe
      refine ⟨_, rfl, ?_, ?_, ?_⟩
      · refine ⟨?_, ?_, ?_⟩
        · intro d hd
          simp [oneBig] at hd
          omega
        · simp [normalizedDigits, oneBig]
        · intro _
          simp [oneBig]
      · simp [oneBig, natVal, hEe]
      · simp [hEe, natVal]
    · rw [if_neg hEe]
      have hEne : E.digits ≠ [] := by
        intro hnil
        exact hEe (List.isEmpty_iff.mpr hnil)
      have hEpos := natVal_pos_of_ne_nil E.digits hE.2.1 hEne
      by_cases hBe : B.digits.isEmpty = true
      · rw [if_pos hBe]
        rw [List.isEmpty_iff] at hBe
        have hBneg : B.negative = false := by
          cases hbn : B.negative
          · rfl
          · exact absurd (hB.2.2 hbn) (by simp [hBe])
        refine ⟨_, rfl, ?_, ?_, ?_⟩
        · refine ⟨?_, ?_, ?_⟩
          · intro d hd
            simp [zeroBig] at hd
          · simp [normalizedDigits, zeroBig]
          · intro hcon
            simp [hBneg] at hcon
        · rw [show natVal B.digits = 0 by simp [hBe, natVal]]
          rw [Nat.zero_pow (by omega)]
          simp [zeroBig, natVal]
        · simp [hBneg]
      · rw [if_neg hBe]
        have hBne : B.digits ≠ [] := by
          intro hnil
          exact hBe (List.isEmpty_iff.mpr hnil)
        have hBpos := natVal_pos_of_ne_nil B.digits hB.2.1 hBne
        have hfuel : natVal E.digits < 2 ^ (8 * E.digits.length + 1) := by
          have h1 := natVal_lt E.digits hE.1
          have h2 : (256 : Nat) ^ E.digits.length = 2 ^ (8 * E.digits.length) := by
            rw [show (256 : Nat) = 2 ^ 8 by norm_num, ← pow_mul]
          have h3 : (2 : Nat) ^ (8 * E.digits.length) < 2 ^ (8 * E.digits.length + 1) :=
            Nat.pow_lt_pow_right (by omega) (by omega)
          omega
        obtain ⟨hlv, hlvalid⟩ :=
          powLoopF_spec (8 * E.digits.length + 1) oneBig B E (by decide) hB hE hEne hfuel
        have hval : natVal (powLoopF (8 * E.digits.length + 1) oneBig B E).digits
            = natVal B.digits ^ natVal E.digits := by
          rw [hlv]
          simp [oneBig, natVal]
        have hppos : 1 ≤ natVal (powLoopF (8 * E.digits.length + 1) oneBig B E).digits := by
          rw [hval]
          exact Nat.one_le_pow _ _ (by omega)
        refine ⟨_, rfl, ?_, ?_, ?_⟩
        · refine ⟨hlvalid.1, hlvalid.2.1, ?_⟩
          intro _
          intro hnil
          rw [hnil] at hppos
          simp [natVal] at hppos
        · exact hval
        · simp [hEe, natVal_mod_two]

theorem C6_pow_witness :
    (({ digits := [2], negative := true } : Bigint)).Valid ∧
    (({ digits := [11], negative := false } : Bigint)).Valid ∧
    (∃ p, bigint_pow ⟨[2], true⟩ ⟨[11], false⟩ = some p ∧ p.Valid ∧
      natVal p.digits = natVal [2] ^ natVal [11] ∧
      p.negative = (true && decide (natVal [11] % 2 = 1))) :=
  ⟨by decide, by decide,
    (C6_pow ⟨[2], true⟩ ⟨[11], false⟩ (by decide) (by decide)).2 rfl⟩

/-- Claim C5, counterexample to the claim as stated: for n = 8, d = -4 all
earlier fast paths are skipped and d is a power of two, but the quotient the
code produces is -2 (`set_signs` flips the sign for a negative divisor),
not "n shifted right by the trailing-zero count of d", which is
`8 >> 2 = 2`. -/
theorem C5_claim_counterexample :
    bigint_div ⟨[8], false⟩ ⟨[4], true⟩ = some (⟨[2], true⟩, ⟨[], false⟩) ∧
    isPow2List [4] = true ∧
    bigint_shri ⟨[8], false⟩ (ctzList [4]) = ⟨[2], false⟩ ∧
    Bigint.toInt ⟨[2], true⟩ ≠ Bigint.toInt ⟨[2], false⟩ := by
  decide

/-- Claim C5, amended: in `bigint_div`, when the earlier fast paths do not
apply (|d| is not 1, and |d| < |n|, which excludes the |n| = |d| and
|n| < |d| paths) and d is a power of two, the quotient's digits are those
of n shifted right by the trailing-zero count of d — so its magnitude is
|n| / |d| — its sign is the XOR of the operands' signs, and the remainder
is identically 0 (even when |d| does not divide |n|). -/
theorem C5_pow2_fast_path (n d : Bigint) (hn : n.Valid) (hd : d.Valid)
    (hd1 : natVal d.digits ≠ 1) (hlt : natVal d.digits < natVal n.digits)
    (hp : isPow2List d.digits = true) :
    ∃ q r, bigint_div n d = some (q, r) ∧
      q.digits = (bigint_shri n (ctzList d.digits)).digits ∧
      natVal q.digits = natVal n.digits / natVal d.digits ∧
      q.negative = (n.negative != d.negative) ∧
      r = ⟨[], false⟩ := by
  have hde : ¬d.digits.isEmpty = true := by
    intro hh
    rw [List.isEmpty_iff] at hh
    rw [hh] at hp
    simp [isPow2List] at hp
  have hdne : d.digits ≠ [] := by
    intro hnil
    exact hde (List.isEmpty_iff.mpr hnil)
  have hdpos := natVal_pos_of_ne_nil d.digits hd.2.1 hdne
  have h2 : natVal d.digits = 2 ^ ctzList d.digits := isPow2_val _ hd.1 hd.2.1 hp
  have h1 : ¬(d.digits.length = 1 ∧ d.digits.headD 0 = 1) := by
    rintro ⟨hl, hh⟩
    obtain ⟨a, ha⟩ := List.length_eq_one.mp hl
    apply hd1
    rw [ha] at hh ⊢
    simp at hh
    simp [natVal, hh]
  have hcmp1 : cmpList n.digits d.digits = 1 := by
    rw [cmpList_eq n.digits d.digits hn.1 hn.2.1 hd.1 hd.2.1,
      if_neg (by omega), if_pos hlt]
  have hdiv : bigint_div n d
      = some (divSetSigns n d (bigint_shri n (ctzList d.digits)) zeroBig) := by
    simp only [bigint_div]
    rw [if_neg hde, if_neg h1, hcmp1]
    simp [hp]
  obtain ⟨hqv, hqvalid, hqneg⟩ := bigint_shri_spec n (ctzList d.digits) hn
  have hqpos : 1 ≤ natVal (bigint_shri n (ctzList d.digits)).digits := by
    rw [hqv, ← h2]
    exact (Nat.one_le_div_iff (by omega)).mpr (by omega)
  have hqne : (bigint_shri n (ctzList d.digits)).digits ≠ [] := by
    intro hnil
    rw [hnil] at hqpos
    simp [natVal] at hqpos
  have hqneg2 : (bigint_shri n (ctzList d.digits)).negative = n.negative := by
    rw [hqv] at hqpos
    rw [hqneg, if_neg (by omega)]
  have hds : divSetSigns n d (bigint_shri n (ctzList d.digits)) zeroBig
      = (⟨(bigint_shri n (ctzList d.digits)).digits, n.negative != d.negative⟩,
         ⟨[], false⟩) := by
    unfold divSetSigns
    have heta : (⟨(bigint_shri n (ctzList d.digits)).digits, n.negative⟩ : Bigint)
        = bigint_shri n (ctzList d.digits) := by
      rw [← hqneg2]
    cases hnn : n.negative <;> cases hdd : d.negative <;>
      simp [hnn, hdd, zeroBig, hqne, hqneg2]
    rw [← hnn, heta]
  refine ⟨⟨(bigint_shri n (ctzList d.digits)).digits, n.negative != d.negative⟩,
    ⟨[], false⟩, ?_, rfl, ?_, rfl, rfl⟩
  · rw [hdiv, hds]
  · show natVal (bigint_shri n (ctzList d.digits)).digits = _
    rw [hqv, h2]

theorem C5_pow2_fast_path_witness :
    (({ digits := [9], negative := false } : Bigint)).Valid ∧
    (({ digits := [4], negative := false } : Bigint)).Valid ∧
    natVal [4] ≠ 1 ∧ natVal [4] < natVal [9] ∧ isPow2List [4] = true ∧
    (∃ q r, bigint_div ⟨[9], false⟩ ⟨[4], false⟩ = some (q, r) ∧
      q.digits = (bigint_shri ⟨[9], false⟩ (ctzList [4])).digits ∧
      natVal q.digits = natVal [9] / natVal [4] ∧
      q.negative = (false != false) ∧
      r = ⟨[], false⟩) :=
  ⟨by decide, by decide, by decide, by decide, by decide,
    C5_pow2_fast_path ⟨[9], false⟩ ⟨[4], false⟩ (by decide) (by decide)
      (by decide) (by decide) (by decide)⟩

/-- Claim C1 (refuted by the code): dividing -7 by 2 takes the power-of-two
divisor fast path, which returns remainder 0 unconditionally, so the code
yields quotient -3 and remainder 0; the division identity n = q·d + r then
fails (-3·2 + 0 = -6 ≠ -7) and the spec's example remainder -1 is not
produced. -/
theorem C1_div_pow2_drops_remainder :
    bigint_div ⟨[7], true⟩ ⟨[2], false⟩ = some (⟨[3], true⟩, ⟨[], false⟩) ∧
    Bigint.toInt ⟨[3], true⟩ * Bigint.toInt ⟨[2], false⟩ + Bigint.toInt ⟨[], false⟩
      ≠ Bigint.toInt ⟨[7], true⟩ := by
  decide

/-- Claim C3 (refuted by the code): `bigint_mov` does not write the
destination's `negative` flag, so moving the value 0 onto a negative
destination leaves `length == 0` with `negative == true`, violating
invariant N2 although both inputs satisfy the representation invariants. -/
theorem C3_mov_breaks_N2 :
    (({ digits := [5], negative := true } : Bigint)).Valid ∧
    (({ digits := [], negative := false } : Bigint)).Valid ∧
    ¬(bigint_mov ⟨[5], true⟩ ⟨[], false⟩).Valid := by
  decide

/-- Claim C4 (refuted by the code): formatting 105 in base 10 reads the
stale remainder digit slot after the `|n| = |d|` division path
(`bigint_movui(*r, 0)` only zeroes the length), producing the string "155";
parsing "155" back yields 155 ≠ 105, so the round trip fails. -/
theorem C4_roundtrip_fails :
    bigint_snprint10 ⟨[105], false⟩ = ['1', '5', '5'] ∧
    bigint_strtobi ['1', '5', '5'] = some ⟨[155], false⟩ ∧
    (⟨[155], false⟩ : Bigint) ≠ (⟨[105], false⟩ : Bigint) := by
  decide

/-- Claim C7 (refuted by the code): `bigint_mov` copies the source's digits
and length but never writes the `negative` flag, so moving 7 onto a
destination holding -1 produces -7, not the source's signed value 7. -/
theorem C7_mov_keeps_dest_sign :
    bigint_mov ⟨[1], true⟩ ⟨[7], false⟩ = ⟨[7], true⟩ ∧
    Bigint.toInt ⟨[7], true⟩ ≠ Bigint.toInt ⟨[7], false⟩ := by
  decide

/-- Claim C8 (refuted by the code): parsing "3.141e2" consumes two of the
three buffered fractional digits while applying the exponent, leaving the
digit "1" unused, but the guard `fraction && decimal != eom`
(bigint.c:2246) compares the cursor against the *last* significant
fractional digit rather than one past it, so when exactly one unused digit
remains the cursor equals `eom` and the fraction pointer is left unset
(`none`) — contradicting the spec's own example.  With one more digit,
"3.1415e2", two digits remain and the pointer is set (to index 4),
exhibiting the off-by-one. -/
theorem C8_fraction_pointer_not_set :
    bigint_strtobif ['3', '.', '1', '4', '1', 'e', '2'] =
      some (⟨[58, 1], false⟩, none) ∧
    bigint_strtobif ['3', '.', '1', '4', '1', '5', 'e', '2'] =
      some (⟨[58, 1], false⟩, some 4) := by
  decide

/-- Claim C9 (refuted by the code): calling `bigint_div` with the quotient
destination aliasing the divisor (`q == d`) resizes the divisor before the
hidden-digit count is computed, so dividing 1000 by 3 writes quotient digit
255 instead of the disjoint-copy result 333 (with remainder 1). -/
theorem C9_div_alias_mismatch :
    bigint_div_alias_qd ⟨[232, 3], false⟩ ⟨[3], false⟩ = ⟨[255], false⟩ ∧
    bigint_div ⟨[232, 3], false⟩ ⟨[3], false⟩ =
      some (⟨[77, 1], false⟩, ⟨[1], false⟩) ∧
    natVal [255] ≠ natVal [77, 1] := by
  decide
